import Mathlib

/-!
# Rules engine of the 9×9 Go game (`src/app.js`)

A shallow embedding of the rules engine: the board model, the connectivity
analysis (`getGroupAndLiberties`), move execution (`tryPlay`, `isLegalMove`),
the session operations (`playMove`, `passTurn`, `pushHistory`, `popHistory`)
and the scoring flood fill (`computeFinalScore`).

Modelling conventions.
* Coordinates are JavaScript numbers that only ever hold integers; they are
  `Int` here, so that `x-1` at `x = 0` is `-1` and is filtered by `inBounds`
  exactly as in the source.
* A board is the array of rows; `cellAt b x y` is the read `b[y][x]`.
* The constants `EMPTY = 0`, `BLACK = 1`, `WHITE = 2` are the three
  constructors of `Cell`.
* `key(x,y)` builds the string `"x,y"`; decimal rendering is injective, so a
  key is modelled by the pair `(x, y)` itself.
* A JavaScript `Set` is a duplicate-free list in insertion order
  (`setAdd`, `setDelete`, membership for `has`, `length` for `size`).
* An array used as a stack (`push`/`pop` at the end) is a list whose head is
  the last element of the array.
* Canvas, DOM, hover and animation state do not take part in the rules and
  are left out of the session record.
-/

namespace Go

/-! ## Config -/

/-- Board dimension, `const N = 9`. -/
def N : Nat := 9

/-- Cell states `EMPTY = 0`, `BLACK = 1`, `WHITE = 2`. -/
inductive Cell where
  | EMPTY
  | BLACK
  | WHITE
deriving DecidableEq

open Cell

abbrev Coord := Int × Int

abbrev Board := List (List Cell)

/-! ## Helpers -/

/-- The source has `key = (x,y) => x + "," + y`. -/
def key (x y : Int) : Coord := (x, y)

/-- The source has `inBounds = (x,y) => x>=0 && x<N && y>=0 && y<N`. -/
def inBounds (x y : Int) : Bool :=
  decide (x ≥ 0) && decide (x < (N : Int)) && decide (y ≥ 0) && decide (y < (N : Int))

/-- The source has `opp = (c) => c === BLACK ? WHITE : (c === WHITE ? BLACK : EMPTY)`. -/
def opp (c : Cell) : Cell :=
  if c = BLACK then WHITE else (if c = WHITE then BLACK else EMPTY)

/-- The read `b[y][x]`. The engine only reads cells that passed `inBounds`;
a read outside the stored rows is given the value `EMPTY` here. -/
def cellAt (b : Board) (x y : Int) : Cell :=
  if x < 0 ∨ y < 0 then EMPTY else (b.getD y.toNat []).getD x.toNat EMPTY

/-- The write `b[y][x] = v` (on a private copy of the board). -/
def setCell (b : Board) (x y : Int) (v : Cell) : Board :=
  if x < 0 ∨ y < 0 then b else b.set y.toNat ((b.getD y.toNat []).set x.toNat v)

/-- The source has `cloneBoard(b) = b.map(row => row.slice())`. -/
def cloneBoard (b : Board) : Board :=
  b.map (fun row => row)

/-- Digit appended by `s += b[y][x]`. -/
def cellChar : Cell → Char
  | EMPTY => '0'
  | BLACK => '1'
  | WHITE => '2'

/-- The coordinates `0, 1, ..., N-1` of a `for(let i=0;i<N;i++)` loop. -/
def indices : List Int :=
  (List.range N).map (fun (i : Nat) => (i : Int))

/-- Row-major concatenation of all cell digits (`boardToString`). -/
def boardToString (b : Board) : String :=
  indices.foldl (fun s y => indices.foldl (fun s x => s.push (cellChar (cellAt b x y))) s) ""

/-- In-bounds orthogonal neighbours, in the source order left, right, up, down. -/
def neighbors (x y : Int) : List Coord :=
  (if inBounds (x-1) y then [(x-1, y)] else []) ++
  (if inBounds (x+1) y then [(x+1, y)] else []) ++
  (if inBounds x (y-1) then [(x, y-1)] else []) ++
  (if inBounds x (y+1) then [(x, y+1)] else [])

/-- The method `Set.prototype.add`: keeps insertion order, ignores a present element. -/
def setAdd {α : Type} [DecidableEq α] (s : List α) (k : α) : List α :=
  if k ∈ s then s else s ++ [k]

/-- The method `Set.prototype.delete`. -/
def setDelete {α : Type} [DecidableEq α] (s : List α) (k : α) : List α :=
  s.filter (fun e => e ≠ k)

/-! ## Connectivity analyzer -/

/-- Result record `{ stones, liberties }`. -/
structure Group where
  stones : List Coord
  liberties : List Coord
deriving DecidableEq

/-- Local variables of the `while(stack.length)` loop of `getGroupAndLiberties`. -/
structure FloodState where
  stack : List Coord
  seen : List Coord
  stones : List Coord
  liberties : List Coord
deriving DecidableEq

/-- Body of `for(const [nx,ny] of neighbors(x,y))` in `getGroupAndLiberties`. -/
def visitNeighbor (b : Board) (color : Cell) (st : FloodState) (n : Coord) : FloodState :=
  let v := cellAt b n.1 n.2
  if v = EMPTY then
    { st with liberties := setAdd st.liberties (key n.1 n.2) }
  else if v = color then
    let k := key n.1 n.2
    if k ∈ st.seen then st
    else { st with seen := setAdd st.seen k, stack := n :: st.stack }
  else st

/-- The `while(stack.length)` loop; every iteration pops one cell that was
marked seen exactly once, so `N*N` iterations always suffice (proved below). -/
def floodLoop (b : Board) (color : Cell) : Nat → FloodState → FloodState
  | 0, st => st
  | fuel + 1, st =>
    match st.stack with
    | [] => st
    | p :: rest =>
      let st1 := { st with stack := rest, stones := st.stones ++ [p] }
      floodLoop b color fuel ((neighbors p.1 p.2).foldl (visitNeighbor b color) st1)

/-- Model of `getGroupAndLiberties(b, sx, sy)`. -/
def getGroupAndLiberties (b : Board) (sx sy : Int) : Group :=
  let color := cellAt b sx sy
  if color = EMPTY then { stones := [], liberties := [] }
  else
    let st := floodLoop b color (N * N)
      { stack := [(sx, sy)], seen := [key sx sy], stones := [], liberties := [] }
    { stones := st.stones, liberties := st.liberties }

/-- Model of `removeStones(b, stones)`. -/
def removeStones (b : Board) (stones : List Coord) : Board :=
  stones.foldl (fun b p => setCell b p.1 p.2 EMPTY) b

/-! ## Move validator and executor -/

/-- Successful result `{ ok:true, b2, capturedCount, capturedStones }`. -/
structure PlayResult where
  b2 : Board
  capturedCount : Nat
  capturedStones : List Coord
deriving DecidableEq

/-- Rejection reasons, the strings returned in `reason`. -/
inductive Reason where
  | out_of_bounds
  | occupied
  | suicide
  | ko
deriving DecidableEq

/-- Body of the capture loop of `tryPlay` for one neighbour `(nx,ny)`. -/
def captureStep (color : Cell) (acc : PlayResult) (n : Coord) : PlayResult :=
  if cellAt acc.b2 n.1 n.2 = opp color then
    let g := getGroupAndLiberties acc.b2 n.1 n.2
    if g.liberties.length = 0 then
      { b2 := removeStones acc.b2 g.stones,
        capturedCount := acc.capturedCount + g.stones.length,
        capturedStones := acc.capturedStones ++ g.stones }
    else acc
  else acc

/-- The part of `tryPlay` that places the stone on a copy of the board and
runs the capture loop over `neighbors(x,y)`; it yields the values of `b2`,
`capturedCount` and `capturedStones` after the loop. -/
def captureLoop (b : Board) (x y : Int) (color : Cell) : PlayResult :=
  let b2 := setCell (cloneBoard b) x y color
  (neighbors x y).foldl (captureStep color)
    { b2 := b2, capturedCount := 0, capturedStones := [] }

/-- Model of `tryPlay(b, x, y, color)`. -/
def tryPlay (b : Board) (x y : Int) (color : Cell) : Except Reason PlayResult :=
  if !inBounds x y then .error .out_of_bounds
  else if cellAt b x y ≠ EMPTY then .error .occupied
  else
    let r := captureLoop b x y color
    let myGroup := getGroupAndLiberties r.b2 x y
    if myGroup.liberties.length = 0 then .error .suicide
    else .ok r

/-- Model of `isLegalMove(b, x, y, color)`; the module variable `prevPosStr`
is passed explicitly. A JavaScript string is truthy iff it is non-empty. -/
def isLegalMove (prevPosStr : String) (b : Board) (x y : Int) (color : Cell) :
    Except Reason PlayResult :=
  match tryPlay b x y color with
  | .error reason => .error reason
  | .ok r =>
    let posStr := boardToString r.b2
    if prevPosStr ≠ "" ∧ posStr = prevPosStr then .error .ko
    else .ok r

/-! ## Game session -/

/-- The object `captures = { [BLACK]: n, [WHITE]: m }`. -/
structure Captures where
  black : Nat
  white : Nat
deriving DecidableEq

/-- The read `captures[color]` for a stone colour. -/
def Captures.get (c : Captures) (color : Cell) : Nat :=
  match color with
  | BLACK => c.black
  | WHITE => c.white
  | EMPTY => 0

/-- The update `captures[color] += n`; the entries of the two stone colours
are the only ones the engine reads. -/
def Captures.add (c : Captures) (color : Cell) (n : Nat) : Captures :=
  match color with
  | BLACK => { c with black := c.black + n }
  | WHITE => { c with white := c.white + n }
  | EMPTY => c

/-- The record `lastMove = { x, y, color }`. -/
structure Move where
  x : Int
  y : Int
  color : Cell
deriving DecidableEq

/-- One entry of `history`, as built by `pushHistory`. -/
structure Snapshot where
  board : Board
  toPlay : Cell
  captures : Captures
  consecutivePasses : Nat
  lastMove : Option Move
  prevPosStr : String
deriving DecidableEq

/-- The module-level rules state. `history` is a stack: its head is the most
recently pushed snapshot. -/
structure Session where
  board : Board
  toPlay : Cell
  captures : Captures
  consecutivePasses : Nat
  lastMove : Option Move
  history : List Snapshot
  prevPosStr : String
  inScoring : Bool
  dead : List Coord
deriving DecidableEq

/-- Model of `pushHistory()`. -/
def pushHistory (s : Session) : Session :=
  { s with history :=
      { board := cloneBoard s.board,
        toPlay := s.toPlay,
        captures := { black := s.captures.black, white := s.captures.white },
        consecutivePasses := s.consecutivePasses,
        lastMove := s.lastMove,
        prevPosStr := s.prevPosStr } :: s.history }

/-- Model of `popHistory()`; with an empty history it returns at once. -/
def popHistory (s : Session) : Session :=
  match s.history with
  | [] => s
  | h :: rest =>
    { s with
      history := rest,
      board := cloneBoard h.board,
      toPlay := h.toPlay,
      captures := { black := h.captures.black, white := h.captures.white },
      consecutivePasses := h.consecutivePasses,
      lastMove := h.lastMove,
      prevPosStr := h.prevPosStr }

/-- Model of `endByPasses()`: it sets `inScoring`; the rest is display. -/
def endByPasses (s : Session) : Session :=
  { s with inScoring := true }

/-- Model of `playMove(x,y,color)`: the returned boolean and the state after the call. -/
def playMove (s : Session) (x y : Int) (color : Cell) : Bool × Session :=
  match isLegalMove s.prevPosStr s.board x y color with
  | .error _ => (false, s)
  | .ok next =>
    let s1 := pushHistory s
    let s2 := { s1 with prevPosStr := boardToString s1.board }
    let s3 := { s2 with board := next.b2 }
    let s4 :=
      if next.capturedCount > 0 then
        { s3 with captures := s3.captures.add color next.capturedCount }
      else s3
    (true, { s4 with
      consecutivePasses := 0,
      lastMove := some { x := x, y := y, color := color },
      toPlay := opp color })

/-- Model of `passTurn()`; scheduling the opponent's reply is left to the caller. -/
def passTurn (s : Session) : Session :=
  if s.inScoring then s
  else
    let s1 := pushHistory s
    let s2 := { s1 with
      prevPosStr := boardToString s1.board,
      lastMove := none,
      consecutivePasses := s1.consecutivePasses + 1,
      toPlay := opp s1.toPlay }
    if s2.consecutivePasses ≥ 2 then endByPasses s2 else s2

/-! ## Scoring -/

/-- Model of `stoneAtScoring(x,y)` over the given board and dead set. -/
def stoneAtScoring (board : Board) (dead : List Coord) (x y : Int) : Cell :=
  let v := cellAt board x y
  if v = EMPTY then EMPTY
  else if key x y ∈ dead then EMPTY
  else v

/-- Model of `countDead(color)`. -/
def countDead (board : Board) (dead : List Coord) (color : Cell) : Nat :=
  indices.foldl (fun cnt y => indices.foldl (fun cnt x =>
    if cellAt board x y = color ∧ key x y ∈ dead then cnt + 1 else cnt) cnt) 0

/-- Local variables of the region flood fill `while(q.length)`. -/
structure RegionState where
  q : List Coord
  visited : List Coord
  region : List Coord
  border : List Cell
deriving DecidableEq

/-- Body of `for(const [nx,ny] of neighbors(cx,cy))` in the region flood fill. -/
def visitRegionNeighbor (board : Board) (dead : List Coord) (st : RegionState) (n : Coord) :
    RegionState :=
  let v := stoneAtScoring board dead n.1 n.2
  if v = EMPTY then
    let kk := key n.1 n.2
    if kk ∈ st.visited then st
    else { st with visited := setAdd st.visited kk, q := n :: st.q }
  else { st with border := setAdd st.border v }

/-- The `while(q.length)` loop of the region flood fill; `N*N` iterations
always suffice (proved below). -/
def regionLoop (board : Board) (dead : List Coord) : Nat → RegionState → RegionState
  | 0, st => st
  | fuel + 1, st =>
    match st.q with
    | [] => st
    | p :: rest =>
      let st1 := { st with q := rest, region := st.region ++ [p] }
      regionLoop board dead fuel ((neighbors p.1 p.2).foldl (visitRegionNeighbor board dead) st1)

/-- Variables of `computeFinalScore` that live across the two `for` loops. -/
structure ScoreAcc where
  visited : List Coord
  blackTerritory : Nat
  whiteTerritory : Nat
deriving DecidableEq

/-- Body of the double loop of `computeFinalScore` at the cell `(x,y)`. -/
def scoreCell (board : Board) (dead : List Coord) (acc : ScoreAcc) (x y : Int) : ScoreAcc :=
  if stoneAtScoring board dead x y ≠ EMPTY then acc
  else
    let k0 := key x y
    if k0 ∈ acc.visited then acc
    else
      let st := regionLoop board dead (N * N)
        { q := [(x, y)], visited := setAdd acc.visited k0, region := [], border := [] }
      if st.border.length = 1 then
        let owner := st.border.head?
        { visited := st.visited,
          blackTerritory :=
            if owner = some BLACK then acc.blackTerritory + st.region.length
            else acc.blackTerritory,
          whiteTerritory :=
            if owner = some WHITE then acc.whiteTerritory + st.region.length
            else acc.whiteTerritory }
      else { acc with visited := st.visited }

/-- The constant `KOMI = 6.5`. -/
def KOMI : ℚ := 13 / 2

/-- The record returned by `computeFinalScore`. -/
structure Score where
  blackTerritory : Nat
  whiteTerritory : Nat
  blackDeadCount : Nat
  whiteDeadCount : Nat
  blackTotal : Nat
  whiteTotal : ℚ
deriving DecidableEq

/-- Model of `computeFinalScore()` over the module state it reads. -/
def computeFinalScore (board : Board) (dead : List Coord) (captures : Captures) : Score :=
  let blackDeadCount := countDead board dead BLACK
  let whiteDeadCount := countDead board dead WHITE
  let acc := indices.foldl (fun acc y => indices.foldl (fun acc x =>
    scoreCell board dead acc x y) acc)
    { visited := [], blackTerritory := 0, whiteTerritory := 0 }
  { blackTerritory := acc.blackTerritory,
    whiteTerritory := acc.whiteTerritory,
    blackDeadCount := blackDeadCount,
    whiteDeadCount := whiteDeadCount,
    blackTotal := acc.blackTerritory + whiteDeadCount + captures.black,
    whiteTotal := (acc.whiteTerritory : ℚ) + blackDeadCount + captures.white + KOMI }

/-- Model of `toggleDeadGroupAt(x,y)`; the first loop, which leaves with
`break` at the first stone that is not marked, computes whether all stones of
the group are marked. -/
def toggleDeadGroupAt (s : Session) (x y : Int) : Session :=
  let v := cellAt s.board x y
  if v = EMPTY then s
  else
    let g := getGroupAndLiberties s.board x y
    let allDead := g.stones.all (fun p => decide (key p.1 p.2 ∈ s.dead))
    { s with dead := g.stones.foldl (fun d p =>
        let k := key p.1 p.2
        if allDead then setDelete d k else setAdd d k) s.dead }

/-- Variables of `computeTerritoryPreviewCells` that live across the two
`for` loops. -/
structure PreviewAcc where
  visited : List Coord
  territoryCells : List (Coord × Cell)
deriving DecidableEq

/-- Body of the double loop of `computeTerritoryPreviewCells` at the cell
`(x,y)`; the inner `while(q.length)` loop is the same text as in
`computeFinalScore`. -/
def previewCell (board : Board) (dead : List Coord) (acc : PreviewAcc) (x y : Int) :
    PreviewAcc :=
  if stoneAtScoring board dead x y ≠ EMPTY then acc
  else
    let k0 := key x y
    if k0 ∈ acc.visited then acc
    else
      let st := regionLoop board dead (N * N)
        { q := [(x, y)], visited := setAdd acc.visited k0, region := [], border := [] }
      if st.border.length = 1 then
        match st.border.head? with
        | some owner =>
          { visited := st.visited,
            territoryCells :=
              acc.territoryCells ++ st.region.map (fun r => (key r.1 r.2, owner)) }
        | none => { acc with visited := st.visited }
      else { acc with visited := st.visited }

/-- Model of `computeTerritoryPreviewCells()` over the module state it reads. -/
def computeTerritoryPreviewCells (board : Board) (dead : List Coord) : List (Coord × Cell) :=
  (indices.foldl (fun acc y => indices.foldl (fun acc x =>
    previewCell board dead acc x y) acc)
    { visited := [], territoryCells := [] }).territoryCells

/-- Model of the click handler of `btnBack` (the back-to-game operation):
`inScoring = false; dead.clear()`; the rest is display. -/
def exitScoring (s : Session) : Session :=
  { s with inScoring := false, dead := [] }

/-! ## Callers of `playMove` -/

/-- Model of `onCanvasClick` from the point where `toBoardCoord` has turned
the click into a board coordinate, or into `null` (`none`). Redrawing, the
score display and the scheduling of the opponent's reply are left out. -/
def onCanvasClick (s : Session) (p : Option Coord) : Session :=
  match p with
  | none => s
  | some p =>
    if s.inScoring then
      if cellAt s.board p.1 p.2 ≠ EMPTY then toggleDeadGroupAt s p.1 p.2 else s
    else if s.toPlay ≠ BLACK then s
    else (playMove s p.1 p.2 BLACK).2

/-- An entry `{x, y, next}` of the list built by `listLegalMoves`. -/
structure Candidate where
  x : Int
  y : Int
  next : PlayResult
deriving DecidableEq

/-- Model of `listLegalMoves(b, color)`. -/
def listLegalMoves (prevPosStr : String) (b : Board) (color : Cell) : List Candidate :=
  indices.foldl (fun res y => indices.foldl (fun res x =>
    if cellAt b x y ≠ EMPTY then res
    else
      match isLegalMove prevPosStr b x y color with
      | .ok next => res ++ [{ x := x, y := y, next := next }]
      | .error _ => res) res) []

/-- Model of `computerPlay()`. The heuristic `evaluateMoveForAI` draws a
random number, so its value on each candidate is a parameter; `none` stands
for the initial `bestScore = -Infinity`. -/
def computerPlay (evaluateMoveForAI : Candidate → ℚ) (s : Session) : Session :=
  if s.inScoring then s
  else if s.toPlay ≠ WHITE then s
  else
    let moves := listLegalMoves s.prevPosStr s.board WHITE
    match moves with
    | [] => passTurn s
    | m0 :: _ =>
      let sel := moves.foldl (fun (acc : Candidate × Option ℚ) m =>
        let sc := evaluateMoveForAI m
        match acc.2 with
        | none => (m, some sc)
        | some bestScore => if sc > bestScore then (m, some sc) else acc) (m0, none)
      (playMove s sel.1.x sel.1.y WHITE).2

/-! ## Specification vocabulary -/

/-- A coordinate lies on the board. -/
def OnBoard (p : Coord) : Prop :=
  0 ≤ p.1 ∧ p.1 < 9 ∧ 0 ≤ p.2 ∧ p.2 < 9

/-- Orthogonal (4-)adjacency: the cells differ by one in exactly one coordinate. -/
def Adj4 (p q : Coord) : Prop :=
  (p.1 - q.1).natAbs + (p.2 - q.2).natAbs = 1

/-- All board coordinates in the order of the source loops
`for(let y=0;y<N;y++) for(let x=0;x<N;x++)`. -/
def allCells : List Coord :=
  indices.flatMap (fun y => indices.map (fun x => (x, y)))

/-- The board is the 9×9 array of arrays built by `resetGame`. -/
def WellFormed (b : Board) : Prop :=
  b.length = 9 ∧ ∀ row ∈ b, row.length = 9

instance (b : Board) : Decidable (WellFormed b) := by
  unfold WellFormed
  infer_instance

instance (p : Coord) : Decidable (OnBoard p) := by
  unfold OnBoard
  infer_instance

/-- One step inside a stone group: to an orthogonally adjacent cell on the
board that holds a stone of colour `color`. -/
def StoneStep (b : Board) (color : Cell) (p q : Coord) : Prop :=
  OnBoard q ∧ Adj4 p q ∧ cellAt b q.1 q.2 = color

/-- The cell `p` belongs to the maximal 4-connected same-colour group of `s`. -/
def InGroup (b : Board) (s p : Coord) : Prop :=
  Relation.ReflTransGen (StoneStep b (cellAt b s.1 s.2)) s p

/-- The cell `l` is a liberty of the group of `s`: an empty cell on the board
orthogonally adjacent to a stone of the group. -/
def IsLiberty (b : Board) (s l : Coord) : Prop :=
  OnBoard l ∧ cellAt b l.1 l.2 = EMPTY ∧ ∃ p, InGroup b s p ∧ Adj4 p l

/-- The cell is effectively empty for scoring: empty, or holding a stone
whose coordinate is marked dead. -/
def EffEmpty (board : Board) (dead : List Coord) (p : Coord) : Prop :=
  cellAt board p.1 p.2 = EMPTY ∨ p ∈ dead

/-- The cell holds a live stone of colour `c`: a stone that is not marked dead. -/
def LiveStone (board : Board) (dead : List Coord) (c : Cell) (n : Coord) : Prop :=
  cellAt board n.1 n.2 = c ∧ c ≠ EMPTY ∧ n ∉ dead

/-- One step inside a region: to an orthogonally adjacent, effectively empty
cell on the board. -/
def RegionStep (board : Board) (dead : List Coord) (p q : Coord) : Prop :=
  OnBoard q ∧ Adj4 p q ∧ EffEmpty board dead q

/-- The cell `p` belongs to the maximal 4-connected region of effectively
empty cells of `s`. -/
def InRegion (board : Board) (dead : List Coord) (s p : Coord) : Prop :=
  Relation.ReflTransGen (RegionStep board dead) s p

/-- The region of `s` is bordered by a live stone of colour `c`. -/
def Borders (board : Board) (dead : List Coord) (s : Coord) (c : Cell) : Prop :=
  ∃ p n, InRegion board dead s p ∧ OnBoard n ∧ Adj4 p n ∧ LiveStone board dead c n

/-- The cell `p` is territory of colour `c`: an effectively empty cell of the
board whose region is bordered by at least one live stone of colour `c` and by
no live stone of the other colour. -/
def IsTerritory (board : Board) (dead : List Coord) (c : Cell) (p : Coord) : Prop :=
  OnBoard p ∧ EffEmpty board dead p ∧ Borders board dead p c ∧ ¬ Borders board dead p (opp c)

/-! ## Common skeleton of the two flood fills (proof device) -/

/-- The part of a flood-fill state that drives the traversal. -/
structure Core where
  stack : List Coord
  seen : List Coord
  out : List Coord

/-- A neighbour that is to be followed and is not yet seen is marked and pushed. -/
def coreVisit (F : Coord → Bool) (c : Core) (n : Coord) : Core :=
  if F n = true ∧ n ∉ c.seen then { c with seen := c.seen ++ [n], stack := n :: c.stack }
  else c

/-- Pop a cell, record it, visit its neighbours. -/
def coreLoop (F : Coord → Bool) : Nat → Core → Core
  | 0, c => c
  | fuel + 1, c =>
    match c.stack with
    | [] => c
    | p :: rest =>
      coreLoop F fuel
        ((neighbors p.1 p.2).foldl (coreVisit F) { c with stack := rest, out := c.out ++ [p] })

/-- One traversal step: to a neighbour listed by `neighbors` that is followed. -/
def FStep (F : Coord → Bool) (p q : Coord) : Prop :=
  q ∈ neighbors p.1 p.2 ∧ F q = true

/-- Invariant of the traversal started at `s` with `seen0` already marked. -/
structure CoreInv (F : Coord → Bool) (s : Coord) (seen0 : List Coord) (c : Core) : Prop where
  seen_nodup : c.seen.Nodup
  work_nodup : (c.out ++ c.stack).Nodup
  seen_iff : ∀ p, p ∈ c.seen ↔ p ∈ seen0 ∨ p ∈ c.out ∨ p ∈ c.stack
  reach : ∀ p, p ∈ c.out ∨ p ∈ c.stack → Relation.ReflTransGen (FStep F) s p
  start : s ∈ c.out ∨ s ∈ c.stack
  onBoard : ∀ p ∈ c.seen, OnBoard p
  count : c.seen.length = seen0.length + c.out.length + c.stack.length

/-- Traversal part of the state of `getGroupAndLiberties`. -/
def FloodState.core (st : FloodState) : Core :=
  { stack := st.stack, seen := st.seen, out := st.stones }

/-- Traversal part of the state of the region flood fill. -/
def RegionState.core (st : RegionState) : Core :=
  { stack := st.q, seen := st.visited, out := st.region }

/-- The cells `getGroupAndLiberties` follows: those holding `color`. -/
def followColor (b : Board) (color : Cell) (n : Coord) : Bool :=
  decide (cellAt b n.1 n.2 = color)

/-- The cells the region flood fill follows: the effectively empty ones. -/
def followEmpty (board : Board) (dead : List Coord) (n : Coord) : Bool :=
  decide (stoneAtScoring board dead n.1 n.2 = EMPTY)

/-- Liberties collected so far: the empty neighbours of the recorded stones. -/
def LibsOf (b : Board) (stones : List Coord) (l : Coord) : Prop :=
  ∃ p ∈ stones, l ∈ neighbors p.1 p.2 ∧ cellAt b l.1 l.2 = EMPTY

/-- The group of `s` has no liberty. -/
def NoLiberty (b : Board) (s : Coord) : Prop :=
  ∀ l, ¬ IsLiberty b s l

/-- Every group on the board has at least one liberty. -/
def AllGroupsAlive (b : Board) : Prop :=
  ∀ p, OnBoard p → cellAt b p.1 p.2 ≠ EMPTY → ∃ l, IsLiberty b p l

/-- The stone at `q` belongs to an opposing group that touches one of the
cells `ns` and has no liberty on the board `b1`. -/
def CapturedVia (b1 : Board) (color : Cell) (ns : List Coord) (q : Coord) : Prop :=
  ∃ n ∈ ns, OnBoard n ∧ cellAt b1 n.1 n.2 = opp color ∧ InGroup b1 n q ∧ NoLiberty b1 n

/-- The stone at `q` is captured by a stone of colour `color` placed at
`(x,y)`: on the board `b1` that holds the placed stone, `q` belongs to a group
of the opposing colour that is adjacent to `(x,y)` and has no liberty. -/
def Captured (b1 : Board) (x y : Int) (color : Cell) (q : Coord) : Prop :=
  ∃ n, OnBoard n ∧ Adj4 (x, y) n ∧ cellAt b1 n.1 n.2 = opp color ∧ InGroup b1 n q ∧
    NoLiberty b1 n

/-- Number of cells that hold a stone on `old` and are empty on `new`. -/
def removedCount (old new : Board) : Nat :=
  (allCells.filter (fun q => decide (cellAt old q.1 q.2 ≠ EMPTY ∧ cellAt new q.1 q.2 = EMPTY))).length

/-- The board `b2` is `b1` with the cells `R` emptied, where `R` is a union of
whole groups of colour `o`. -/
structure Removal (b1 b2 : Board) (R : List Coord) (o : Cell) : Prop where
  cells : ∀ x y, cellAt b2 x y = if (x, y) ∈ R then EMPTY else cellAt b1 x y
  color : ∀ q ∈ R, cellAt b1 q.1 q.2 = o
  closed : ∀ q ∈ R, ∀ p, InGroup b1 q p → p ∈ R
  onBoard : ∀ q ∈ R, OnBoard q

/-- Invariant of the capture loop of `tryPlay` after the neighbours `ns`. -/
structure CapInv (b1 : Board) (color : Cell) (ns : List Coord) (acc : PlayResult) : Prop where
  wf : WellFormed acc.b2
  removal : Removal b1 acc.b2 acc.capturedStones (opp color)
  nodup : acc.capturedStones.Nodup
  count : acc.capturedCount = acc.capturedStones.length
  mem : ∀ q, q ∈ acc.capturedStones ↔ CapturedVia b1 color ns q

/-! ## Concrete positions used to instantiate the theorems -/

/-- The empty board built by `resetGame`. -/
def emptyBoard : Board :=
  List.replicate 9 (List.replicate 9 EMPTY)

/-- The session state set up by `resetGame`. -/
def resetGame : Session :=
  { board := emptyBoard,
    toPlay := BLACK,
    captures := { black := 0, white := 0 },
    consecutivePasses := 0,
    lastMove := none,
    history := [],
    prevPosStr := "",
    inScoring := false,
    dead := [] }

/-- A corner position: White at (0,0), Black at (1,0); Black to play. -/
def cornerBoard : Board :=
  setCell (setCell emptyBoard 0 0 WHITE) 1 0 BLACK

/-- A session holding `cornerBoard` with Black to move. -/
def cornerSession : Session :=
  { resetGame with board := cornerBoard }

/-- Border colours collected so far: the live colours next to the recorded region. -/
def BorderOf (board : Board) (dead : List Coord) (region : List Coord) (v : Cell) : Prop :=
  ∃ p ∈ region, ∃ n ∈ neighbors p.1 p.2, stoneAtScoring board dead n.1 n.2 = v ∧ v ≠ EMPTY

/-- The double loop of `computeFinalScore` as one pass over `allCells`. -/
def scoreCells (board : Board) (dead : List Coord) (cells : List Coord) (acc : ScoreAcc) :
    ScoreAcc :=
  cells.foldl (fun acc p => scoreCell board dead acc p.1 p.2) acc

/-- Invariant of the double loop of `computeFinalScore` after the cells `done`. -/
structure ScoreInv (board : Board) (dead : List Coord) (done : List Coord) (acc : ScoreAcc) :
    Prop where
  nodup : acc.visited.Nodup
  onBoard : ∀ p ∈ acc.visited, OnBoard p
  closed : ∀ p ∈ acc.visited, ∀ q, FStep (followEmpty board dead) p q → q ∈ acc.visited
  covered : ∀ p ∈ done, EffEmpty board dead p → p ∈ acc.visited
  black : ∃ l : List Coord, l.Nodup ∧
    (∀ p, p ∈ l ↔ p ∈ acc.visited ∧ IsTerritory board dead BLACK p) ∧
    acc.blackTerritory = l.length
  white : ∃ l : List Coord, l.Nodup ∧
    (∀ p, p ∈ l ↔ p ∈ acc.visited ∧ IsTerritory board dead WHITE p) ∧
    acc.whiteTerritory = l.length

/-- The Scoring state reached from a new game by two passes. -/
def scoringSession : Session :=
  passTurn (passTurn resetGame)

/-- A position with a Black wall on column 1 and a White wall on column 3. -/
def wallBoard : Board :=
  indices.foldl (fun b y => setCell (setCell b 1 y BLACK) 3 y WHITE) emptyBoard

/-- Places the listed stones on the empty board. -/
def boardOf (stones : List (Int × Int × Cell)) : Board :=
  stones.foldl (fun b st => setCell b st.1 st.2.1 st.2.2) emptyBoard

/-- A ko shape: the White stone at (1,1) has its last liberty at (2,1), and a
Black stone played there is itself left with the single liberty (1,1). -/
def koBoard : Board :=
  boardOf [(1, 0, BLACK), (0, 1, BLACK), (1, 2, BLACK),
    (2, 0, WHITE), (3, 1, WHITE), (2, 2, WHITE), (1, 1, WHITE)]

/-- A session holding `koBoard` with Black to move. -/
def koSession : Session :=
  { resetGame with board := koBoard }

/-- An eye: Black stones at (1,0) and (0,1) surround the corner (0,0). -/
def eyeBoard : Board :=
  boardOf [(1, 0, BLACK), (0, 1, BLACK)]

/-- The double loop of `computeTerritoryPreviewCells` as one pass over `allCells`. -/
def previewCells (board : Board) (dead : List Coord) (cells : List Coord) (acc : PreviewAcc) :
    PreviewAcc :=
  cells.foldl (fun acc p => previewCell board dead acc p.1 p.2) acc

/-- Invariant of the double loop of `computeTerritoryPreviewCells` after the
cells `done`. -/
structure PreviewInv (board : Board) (dead : List Coord) (done : List Coord)
    (acc : PreviewAcc) : Prop where
  nodup : acc.visited.Nodup
  onBoard : ∀ p ∈ acc.visited, OnBoard p
  closed : ∀ p ∈ acc.visited, ∀ q, FStep (followEmpty board dead) p q → q ∈ acc.visited
  covered : ∀ p ∈ done, EffEmpty board dead p → p ∈ acc.visited
  keys : (acc.territoryCells.map Prod.fst).Nodup
  cells : ∀ p c, (p, c) ∈ acc.territoryCells ↔
    p ∈ acc.visited ∧ (c = BLACK ∨ c = WHITE) ∧ IsTerritory board dead c p

/-- The session after a Black move at (0,0) followed by two passes. -/
def whiteToMoveScoring : Session :=
  passTurn (passTurn (onCanvasClick resetGame (some (0, 0))))

/-- A Scoring session on `wallBoard` in which one White stone is marked dead. -/
def wallSession : Session :=
  { resetGame with board := wallBoard, inScoring := true, dead := [(3, 4)] }

/-- The session holding `cornerBoard` after Black has passed once: White is
to move and the consecutive-pass counter is 1. -/
def onePassSession : Session :=
  passTurn cornerSession

/-! # Theorems -/

/-! ## Basic facts on coordinates -/

theorem inBounds_iff (x y : Int) : inBounds x y = true ↔ OnBoard (x, y) := by
  simp only [inBounds, N, OnBoard, Bool.and_eq_true, decide_eq_true_eq]
  constructor
  · rintro ⟨⟨⟨h1, h2⟩, h3⟩, h4⟩
    exact ⟨h1, by simpa using h2, h3, by simpa using h4⟩
  · rintro ⟨h1, h2, h3, h4⟩
    exact ⟨⟨⟨h1, by simpa using h2⟩, h3⟩, by simpa using h4⟩

theorem mem_neighbors (x y : Int) (q : Coord) :
    q ∈ neighbors x y ↔ OnBoard q ∧ Adj4 (x, y) q := by
  obtain ⟨qx, qy⟩ := q
  simp only [neighbors, List.mem_append, Adj4]
  constructor
  · rintro (((h | h) | h) | h) <;>
    · split at h
      · rename_i hb
        simp only [List.mem_singleton, Prod.mk.injEq] at h
        obtain ⟨rfl, rfl⟩ := h
        refine ⟨(inBounds_iff _ _).1 hb, ?_⟩
        omega
      · simp at h
  · rintro ⟨hb, ha⟩
    have hb2 := (inBounds_iff qx qy).2 hb
    have : (qx = x - 1 ∧ qy = y) ∨ (qx = x + 1 ∧ qy = y) ∨ (qx = x ∧ qy = y - 1) ∨
        (qx = x ∧ qy = y + 1) := by omega
    rcases this with ⟨rfl, rfl⟩ | ⟨rfl, rfl⟩ | ⟨rfl, rfl⟩ | ⟨rfl, rfl⟩
    · left; left; left; simp [hb2]
    · left; left; right; simp [hb2]
    · left; right; simp [hb2]
    · right; simp [hb2]

theorem Adj4.symm {p q : Coord} (h : Adj4 p q) : Adj4 q p := by
  unfold Adj4 at *; omega

theorem Adj4.ne {p q : Coord} (h : Adj4 p q) : p ≠ q := by
  rintro rfl; simp [Adj4] at h

theorem mem_indices (i : Int) : i ∈ indices ↔ 0 ≤ i ∧ i < 9 := by
  simp only [indices, N, List.mem_map, List.mem_range]
  constructor
  · rintro ⟨a, ha, rfl⟩; omega
  · rintro ⟨h1, h2⟩; exact ⟨i.toNat, by omega, by omega⟩

theorem mem_allCells (p : Coord) : p ∈ allCells ↔ OnBoard p := by
  obtain ⟨x, y⟩ := p
  simp only [allCells, List.mem_flatMap, List.mem_map, Prod.mk.injEq, OnBoard, mem_indices]
  constructor
  · rintro ⟨a, ha, b, hb, rfl, rfl⟩; omega
  · rintro ⟨h1, h2, h3, h4⟩; exact ⟨y, ⟨h3, h4⟩, x, ⟨h1, h2⟩, rfl, rfl⟩

theorem length_allCells : allCells.length = 81 := by decide

theorem allCells_nodup : allCells.Nodup := by decide

theorem length_le_of_onBoard {l : List Coord} (hn : l.Nodup) (hb : ∀ p ∈ l, OnBoard p) :
    l.length ≤ 81 := by
  have hsub : l ⊆ allCells := fun p hp => (mem_allCells p).2 (hb p hp)
  have := (List.subperm_of_subset hn hsub).length_le
  rwa [length_allCells] at this

theorem mem_setAdd {α : Type} [DecidableEq α] (s : List α) (k a : α) :
    a ∈ setAdd s k ↔ a ∈ s ∨ a = k := by
  unfold setAdd
  split
  · constructor
    · exact Or.inl
    · rintro (h | rfl)
      · exact h
      · assumption
  · simp

theorem nodup_setAdd {α : Type} [DecidableEq α] (s : List α) (k : α) (h : s.Nodup) :
    (setAdd s k).Nodup := by
  unfold setAdd
  split
  · exact h
  · rename_i hk
    exact List.Nodup.append h (List.nodup_singleton k) (by simpa using hk)

/-! ## The traversal skeleton -/

section CoreLemmas

variable {F : Coord → Bool} {s : Coord} {seen0 : List Coord}

theorem coreVisit_out (c : Core) (n : Coord) : (coreVisit F c n).out = c.out := by
  unfold coreVisit; split <;> rfl

theorem coreVisit_seen_mono (c : Core) (n : Coord) : c.seen ⊆ (coreVisit F c n).seen := by
  unfold coreVisit; split
  · intro p hp; simp [hp]
  · exact fun _ h => h

theorem coreVisit_seen (c : Core) (n : Coord) (hF : F n = true) : n ∈ (coreVisit F c n).seen := by
  unfold coreVisit; split
  · simp
  · rename_i h
    by_contra hn
    exact h ⟨hF, hn⟩

theorem coreVisit_inv {c : Core} {p n : Coord} (hinv : CoreInv F s seen0 c)
    (hp : p ∈ c.out) (hn : n ∈ neighbors p.1 p.2) : CoreInv F s seen0 (coreVisit F c n) := by
  unfold coreVisit
  split
  · rename_i h
    obtain ⟨hF, hns⟩ := h
    have hnot : n ∉ c.out ∧ n ∉ c.stack := by
      constructor <;> intro hmem <;> exact hns ((hinv.seen_iff n).2 (by simp [hmem]))
    refine ⟨?_, ?_, ?_, ?_, ?_, ?_, ?_⟩
    · exact List.Nodup.append hinv.seen_nodup (List.nodup_singleton n) (by simpa using hns)
    · have h1 := hinv.work_nodup
      simp only
      rw [List.nodup_append] at h1 ⊢
      refine ⟨h1.1, List.nodup_cons.2 ⟨hnot.2, h1.2.1⟩, ?_⟩
      intro a ha hb
      rcases List.mem_cons.1 hb with rfl | hb
      · exact hnot.1 ha
      · exact h1.2.2 ha hb
    · intro q
      simp only [List.mem_append, List.mem_singleton, List.mem_cons]
      rw [hinv.seen_iff q]
      tauto
    · intro q hq
      simp only [List.mem_cons] at hq
      rcases hq with hq | rfl | hq
      · exact hinv.reach q (Or.inl hq)
      · exact (hinv.reach p (Or.inl hp)).tail ⟨hn, hF⟩
      · exact hinv.reach q (Or.inr hq)
    · rcases hinv.start with h | h
      · exact Or.inl h
      · exact Or.inr (List.mem_cons_of_mem _ h)
    · intro q hq
      simp only [List.mem_append, List.mem_singleton] at hq
      rcases hq with hq | rfl
      · exact hinv.onBoard q hq
      · exact ((mem_neighbors _ _ _).1 hn).1
    · have := hinv.count
      simp only [List.length_append, List.length_singleton, List.length_cons, List.length_nil]
      omega
  · exact hinv

theorem coreFold_inv (p : Coord) (ns : List Coord) :
    ∀ c : Core, CoreInv F s seen0 c → p ∈ c.out → (∀ n ∈ ns, n ∈ neighbors p.1 p.2) →
      CoreInv F s seen0 (ns.foldl (coreVisit F) c) ∧
      (ns.foldl (coreVisit F) c).out = c.out ∧
      c.seen ⊆ (ns.foldl (coreVisit F) c).seen ∧
      ∀ n ∈ ns, F n = true → n ∈ (ns.foldl (coreVisit F) c).seen := by
  induction ns with
  | nil =>
    intro c hinv _ _
    exact ⟨hinv, rfl, fun _ h => h, by simp⟩
  | cons n ns ih =>
    intro c hinv hp hns
    have h1 := coreVisit_inv hinv hp (hns n (List.mem_cons_self _ _))
    have hp1 : p ∈ (coreVisit F c n).out := by rw [coreVisit_out]; exact hp
    obtain ⟨i1, i2, i3, i4⟩ := ih (coreVisit F c n) h1 hp1
      (fun m hm => hns m (List.mem_cons_of_mem _ hm))
    simp only [List.foldl_cons]
    refine ⟨i1, by rw [i2, coreVisit_out], fun q hq => i3 (coreVisit_seen_mono c n hq), ?_⟩
    intro m hm hF
    rcases List.mem_cons.1 hm with rfl | hm
    · exact i3 (coreVisit_seen c m hF)
    · exact i4 m hm hF

/-- The traversal loop keeps the invariant, keeps the popped cells closed
under traversal steps, and ends with an empty stack within `N*N` iterations. -/
theorem coreLoop_inv (fuel : Nat) :
    ∀ c : Core, CoreInv F s seen0 c →
      (∀ p ∈ c.out, ∀ q, FStep F p q → q ∈ c.seen) →
      81 ≤ fuel + c.out.length →
      CoreInv F s seen0 (coreLoop F fuel c) ∧
      (∀ p ∈ (coreLoop F fuel c).out, ∀ q, FStep F p q → q ∈ (coreLoop F fuel c).seen) ∧
      (coreLoop F fuel c).stack = [] := by
  induction fuel with
  | zero =>
    intro c hinv hcl hfuel
    refine ⟨hinv, hcl, ?_⟩
    have h1 := length_le_of_onBoard hinv.seen_nodup hinv.onBoard
    have h2 := hinv.count
    simp only [coreLoop]
    apply List.eq_nil_of_length_eq_zero
    omega
  | succ fuel ih =>
    intro c hinv hcl hfuel
    obtain ⟨stack, seen, out⟩ := c
    cases stack with
    | nil => exact ⟨hinv, hcl, rfl⟩
    | cons p rest =>
      simp only [coreLoop]
      have hinv1 : CoreInv F s seen0 { stack := rest, seen := seen, out := out ++ [p] } := by
        refine ⟨hinv.seen_nodup, ?_, ?_, ?_, ?_, hinv.onBoard, ?_⟩
        · have := hinv.work_nodup
          simp only [List.append_assoc, List.singleton_append]
          exact this
        · intro q
          rw [hinv.seen_iff q]
          simp only [List.mem_append, List.mem_singleton, List.mem_cons]
          tauto
        · intro q hq
          apply hinv.reach q
          simp only [List.mem_append, List.mem_singleton, List.mem_cons] at hq ⊢
          tauto
        · have := hinv.start
          simp only [List.mem_append, List.mem_singleton, List.mem_cons] at this ⊢
          tauto
        · have := hinv.count
          simp only [List.length_append, List.length_cons, List.length_nil] at this ⊢
          omega
      have hp1 : p ∈ ({ stack := rest, seen := seen, out := out ++ [p] } : Core).out := by simp
      obtain ⟨i1, i2, i3, i4⟩ := coreFold_inv p (neighbors p.1 p.2) _ hinv1 hp1 (fun n hn => hn)
      apply ih _ i1
      · intro a ha q hq
        rw [i2] at ha
        simp only [List.mem_append, List.mem_singleton] at ha
        rcases ha with ha | rfl
        · exact i3 (hcl a ha q hq)
        · exact i4 q hq.1 hq.2
      · rw [i2]
        dsimp only at hfuel ⊢
        simp only [List.length_append, List.length_singleton, List.length_nil] at hfuel ⊢
        omega

end CoreLemmas

section CoreSpec

variable {F : Coord → Bool} {s : Coord} {seen0 : List Coord}

theorem fstep_props {p q : Coord} (h : FStep F p q) : F q = true ∧ OnBoard q :=
  ⟨h.2, ((mem_neighbors _ _ _).1 h.1).1⟩

theorem fstep_symm {p q : Coord} (hp : F p = true) (hpb : OnBoard p) (h : FStep F p q) :
    FStep F q p := by
  refine ⟨(mem_neighbors _ _ _).2 ⟨hpb, ?_⟩, hp⟩
  exact ((mem_neighbors _ _ _).1 h.1).2.symm

theorem reach_props (hs : F s = true) (hsb : OnBoard s) {p : Coord}
    (h : Relation.ReflTransGen (FStep F) s p) : F p = true ∧ OnBoard p := by
  induction h with
  | refl => exact ⟨hs, hsb⟩
  | tail _ hstep _ => exact fstep_props hstep

theorem reach_symm (hs : F s = true) (hsb : OnBoard s) {p : Coord}
    (h : Relation.ReflTransGen (FStep F) s p) : Relation.ReflTransGen (FStep F) p s := by
  induction h with
  | refl => exact Relation.ReflTransGen.refl
  | tail hsp hstep ih =>
    have hp := reach_props hs hsb hsp
    exact Relation.ReflTransGen.head (fstep_symm hp.1 hp.2 hstep) ih

theorem reach_not_mem_seen0 (hs : F s = true) (hsb : OnBoard s) (h0 : s ∉ seen0)
    (h0c : ∀ p ∈ seen0, ∀ q, FStep F p q → q ∈ seen0) {p : Coord}
    (h : Relation.ReflTransGen (FStep F) s p) : p ∉ seen0 := by
  induction h with
  | refl => exact h0
  | tail hsp hstep ih =>
    intro hq
    have hp := reach_props hs hsb hsp
    exact ih (h0c _ hq _ (fstep_symm hp.1 hp.2 hstep))

theorem coreInv_init (hsb : OnBoard s) (h0 : s ∉ seen0) (h0n : seen0.Nodup)
    (h0b : ∀ p ∈ seen0, OnBoard p) :
    CoreInv F s seen0 { stack := [s], seen := seen0 ++ [s], out := [] } := by
  refine ⟨?_, ?_, ?_, ?_, ?_, ?_, ?_⟩
  · exact List.Nodup.append h0n (List.nodup_singleton s) (by simpa using h0)
  · simp
  · intro p; simp
  · intro p hp
    simp only [List.not_mem_nil, List.mem_singleton, false_or] at hp
    subst hp
    exact Relation.ReflTransGen.refl
  · simp
  · intro p hp
    simp only [List.mem_append, List.mem_singleton] at hp
    rcases hp with hp | rfl
    · exact h0b p hp
    · exact hsb
  · simp

/-- Result of the traversal: the popped cells are exactly the cells reachable
from the start, each once, and the marked cells are the old ones plus these. -/
theorem coreLoop_spec (hs : F s = true) (hsb : OnBoard s) (h0 : s ∉ seen0) (h0n : seen0.Nodup)
    (h0b : ∀ p ∈ seen0, OnBoard p) (h0c : ∀ p ∈ seen0, ∀ q, FStep F p q → q ∈ seen0) :
    (coreLoop F 81 { stack := [s], seen := seen0 ++ [s], out := [] }).out.Nodup ∧
    (∀ p, p ∈ (coreLoop F 81 { stack := [s], seen := seen0 ++ [s], out := [] }).out ↔
      Relation.ReflTransGen (FStep F) s p) ∧
    (coreLoop F 81 { stack := [s], seen := seen0 ++ [s], out := [] }).seen.Nodup ∧
    (∀ p, p ∈ (coreLoop F 81 { stack := [s], seen := seen0 ++ [s], out := [] }).seen ↔
      p ∈ seen0 ∨ Relation.ReflTransGen (FStep F) s p) := by
  obtain ⟨hinv, hcl, hstack⟩ := @coreLoop_inv F s seen0 81
    { stack := [s], seen := seen0 ++ [s], out := [] } (coreInv_init hsb h0 h0n h0b)
    (by simp) (by simp)
  generalize coreLoop F 81 { stack := [s], seen := seen0 ++ [s], out := [] } = c at *
  have hout : ∀ p, p ∈ c.out ↔ Relation.ReflTransGen (FStep F) s p := by
    intro p
    constructor
    · intro hp; exact hinv.reach p (Or.inl hp)
    · intro hp
      induction hp with
      | refl =>
        rcases hinv.start with h | h
        · exact h
        · rw [hstack] at h; simp at h
      | tail hsp hstep ih =>
        rename_i a b
        have hb := hcl _ ih _ hstep
        rcases (hinv.seen_iff b).1 hb with h | h | h
        · exact absurd h (reach_not_mem_seen0 hs hsb h0 h0c (hsp.tail hstep))
        · exact h
        · rw [hstack] at h; simp at h
  refine ⟨?_, hout, hinv.seen_nodup, ?_⟩
  · have := hinv.work_nodup
    rw [hstack, List.append_nil] at this
    exact this
  · intro p
    rw [hinv.seen_iff p, hstack, ← hout p]
    simp

end CoreSpec

/-! ## `getGroupAndLiberties` -/

/-- The traversal part of a `FloodState`. -/
theorem visitNeighbor_stones (b : Board) (color : Cell) (st : FloodState) (n : Coord) :
    (visitNeighbor b color st n).stones = st.stones := by
  unfold visitNeighbor
  dsimp only
  split
  · rfl
  · split
    · split <;> rfl
    · rfl

theorem foldl_visitNeighbor_stones (b : Board) (color : Cell) (ns : List Coord) :
    ∀ st : FloodState, (ns.foldl (visitNeighbor b color) st).stones = st.stones := by
  induction ns with
  | nil => intro st; rfl
  | cons n ns ih =>
    intro st
    rw [List.foldl_cons, ih, visitNeighbor_stones]

theorem visitNeighbor_core (b : Board) (color : Cell) (hc : color ≠ EMPTY) (st : FloodState)
    (n : Coord) :
    (visitNeighbor b color st n).core = coreVisit (followColor b color) st.core n := by
  unfold visitNeighbor coreVisit followColor FloodState.core key
  dsimp only
  have hc2 : ¬ EMPTY = color := fun h => hc h.symm
  by_cases h1 : cellAt b n.1 n.2 = EMPTY
  · simp [h1, hc2]
  · by_cases h2 : cellAt b n.1 n.2 = color
    · by_cases h3 : n ∈ st.seen
      · rw [if_neg h1, if_pos h2, if_pos h3]
        simp [h2, h3]
      · rw [if_neg h1, if_pos h2, if_neg h3]
        simp [h2, h3, setAdd]
    · simp [h1, h2]

theorem foldl_visitNeighbor_core (b : Board) (color : Cell) (hc : color ≠ EMPTY)
    (ns : List Coord) : ∀ st : FloodState,
    (ns.foldl (visitNeighbor b color) st).core =
      ns.foldl (coreVisit (followColor b color)) st.core := by
  induction ns with
  | nil => intro st; rfl
  | cons n ns ih =>
    intro st
    rw [List.foldl_cons, List.foldl_cons, ih, visitNeighbor_core b color hc]

theorem floodLoop_core (b : Board) (color : Cell) (hc : color ≠ EMPTY) (fuel : Nat) :
    ∀ st : FloodState,
    (floodLoop b color fuel st).core = coreLoop (followColor b color) fuel st.core := by
  induction fuel with
  | zero => intro st; rfl
  | succ fuel ih =>
    intro st
    obtain ⟨stack, seen, stones, libs⟩ := st
    cases stack with
    | nil => rfl
    | cons p rest =>
      show (floodLoop b color fuel _).core = coreLoop _ fuel _
      rw [ih, foldl_visitNeighbor_core b color hc]
      rfl

theorem foldl_visitNeighbor_libs (b : Board) (color : Cell) (ns : List Coord) :
    ∀ st : FloodState, st.liberties.Nodup →
      (ns.foldl (visitNeighbor b color) st).liberties.Nodup ∧
      ∀ l, l ∈ (ns.foldl (visitNeighbor b color) st).liberties ↔
        l ∈ st.liberties ∨ (l ∈ ns ∧ cellAt b l.1 l.2 = EMPTY) := by
  induction ns with
  | nil => intro st h; exact ⟨h, by simp⟩
  | cons n ns ih =>
    intro st h
    rw [List.foldl_cons]
    by_cases h1 : cellAt b n.1 n.2 = EMPTY
    · have hv : visitNeighbor b color st n =
          { st with liberties := setAdd st.liberties n } := by
        unfold visitNeighbor key; simp [h1]
      rw [hv]
      obtain ⟨i1, i2⟩ := ih { st with liberties := setAdd st.liberties n }
        (nodup_setAdd _ _ h)
      refine ⟨i1, fun l => ?_⟩
      rw [i2 l]
      simp only [mem_setAdd, List.mem_cons]
      constructor
      · rintro ((h | rfl) | ⟨h, h'⟩)
        · exact Or.inl h
        · exact Or.inr ⟨Or.inl rfl, h1⟩
        · exact Or.inr ⟨Or.inr h, h'⟩
      · rintro (h | ⟨rfl | h, h'⟩)
        · exact Or.inl (Or.inl h)
        · exact Or.inl (Or.inr rfl)
        · exact Or.inr ⟨h, h'⟩
    · have hv : (visitNeighbor b color st n).liberties = st.liberties := by
        unfold visitNeighbor; dsimp only; rw [if_neg h1]
        split
        · split <;> rfl
        · rfl
      obtain ⟨i1, i2⟩ := ih (visitNeighbor b color st n) (by rw [hv]; exact h)
      refine ⟨i1, fun l => ?_⟩
      rw [i2 l, hv]
      simp only [List.mem_cons]
      constructor
      · rintro (h | ⟨h, h'⟩)
        · exact Or.inl h
        · exact Or.inr ⟨Or.inr h, h'⟩
      · rintro (h | ⟨rfl | h, h'⟩)
        · exact Or.inl h
        · exact absurd h' h1
        · exact Or.inr ⟨h, h'⟩

theorem floodLoop_libs (b : Board) (color : Cell) (fuel : Nat) :
    ∀ st : FloodState, st.liberties.Nodup →
      (∀ l, l ∈ st.liberties ↔ LibsOf b st.stones l) →
      (floodLoop b color fuel st).liberties.Nodup ∧
      ∀ l, l ∈ (floodLoop b color fuel st).liberties ↔
        LibsOf b (floodLoop b color fuel st).stones l := by
  induction fuel with
  | zero => intro st h1 h2; exact ⟨h1, h2⟩
  | succ fuel ih =>
    intro st h1 h2
    obtain ⟨stack, seen, stones, libs⟩ := st
    cases stack with
    | nil => exact ⟨h1, h2⟩
    | cons p rest =>
      simp only [floodLoop]
      obtain ⟨i1, i2⟩ := foldl_visitNeighbor_libs b color (neighbors p.1 p.2)
        { stack := rest, seen := seen, stones := stones ++ [p], liberties := libs } h1
      apply ih _ i1
      intro l
      rw [i2 l, foldl_visitNeighbor_stones]
      dsimp only at h2 ⊢
      rw [h2 l]
      unfold LibsOf
      constructor
      · rintro (⟨q, hq, h⟩ | h)
        · exact ⟨q, by simp [hq], h⟩
        · exact ⟨p, by simp, h⟩
      · rintro ⟨q, hq, h⟩
        simp only [List.mem_append, List.mem_singleton] at hq
        rcases hq with hq | rfl
        · exact Or.inl ⟨q, hq, h⟩
        · exact Or.inr h

theorem fstep_followColor (b : Board) (color : Cell) (p q : Coord) :
    FStep (followColor b color) p q ↔ StoneStep b color p q := by
  unfold FStep StoneStep followColor
  rw [mem_neighbors]
  simp only [decide_eq_true_eq]
  tauto

theorem reach_followColor (b : Board) (color : Cell) (s p : Coord) :
    Relation.ReflTransGen (FStep (followColor b color)) s p ↔
      Relation.ReflTransGen (StoneStep b color) s p := by
  have : FStep (followColor b color) = StoneStep b color := by
    funext p q; exact propext (fstep_followColor b color p q)
  rw [this]

/-- Stones and liberties computed by `getGroupAndLiberties` at an occupied
cell of the board (the content of claim C1, in the form used by later proofs). -/
theorem getGroup_spec (b : Board) (sx sy : Int) (hin : OnBoard (sx, sy))
    (hocc : cellAt b sx sy ≠ EMPTY) :
    (getGroupAndLiberties b sx sy).stones.Nodup ∧
    (∀ p, p ∈ (getGroupAndLiberties b sx sy).stones ↔ InGroup b (sx, sy) p) ∧
    (getGroupAndLiberties b sx sy).liberties.Nodup ∧
    (∀ l, l ∈ (getGroupAndLiberties b sx sy).liberties ↔ IsLiberty b (sx, sy) l) := by
  have hF : followColor b (cellAt b sx sy) (sx, sy) = true := by simp [followColor]
  obtain ⟨c1, c2, -, -⟩ := @coreLoop_spec (followColor b (cellAt b sx sy)) (sx, sy) []
    hF hin (by simp) List.nodup_nil (by simp) (by simp)
  have hcore := floodLoop_core b (cellAt b sx sy) hocc 81
    { stack := [(sx, sy)], seen := [key sx sy], stones := [], liberties := [] }
  obtain ⟨l1, l2⟩ := floodLoop_libs b (cellAt b sx sy) 81
    { stack := [(sx, sy)], seen := [key sx sy], stones := [], liberties := [] }
    List.nodup_nil (by intro l; simp [LibsOf])
  simp only [FloodState.core, key, List.nil_append] at hcore c1 c2
  have hst : (floodLoop b (cellAt b sx sy) 81
      { stack := [(sx, sy)], seen := [(sx, sy)], stones := [], liberties := [] }).stones =
      (coreLoop (followColor b (cellAt b sx sy)) 81
        { stack := [(sx, sy)], seen := [(sx, sy)], out := [] }).out :=
    congrArg Core.out hcore
  have hg : getGroupAndLiberties b sx sy =
      { stones := (floodLoop b (cellAt b sx sy) 81
          { stack := [(sx, sy)], seen := [(sx, sy)], stones := [], liberties := [] }).stones,
        liberties := (floodLoop b (cellAt b sx sy) 81
          { stack := [(sx, sy)], seen := [(sx, sy)], stones := [], liberties := [] }).liberties } := by
    unfold getGroupAndLiberties
    simp only [hocc, if_false, N, key]
  rw [hg]
  dsimp only
  simp only [key] at l1 l2
  have hmem : ∀ p, p ∈ (floodLoop b (cellAt b sx sy) 81
      { stack := [(sx, sy)], seen := [(sx, sy)], stones := [], liberties := [] }).stones ↔
      InGroup b (sx, sy) p := by
    intro p
    rw [hst, c2 p, reach_followColor]
    rfl
  refine ⟨by rw [hst]; exact c1, hmem, l1, ?_⟩
  intro l
  rw [l2 l]
  unfold LibsOf IsLiberty
  constructor
  · rintro ⟨p, hp, hn, he⟩
    rw [mem_neighbors] at hn
    exact ⟨hn.1, he, p, (hmem p).1 hp, hn.2⟩
  · rintro ⟨hb, he, p, hp, ha⟩
    exact ⟨p, (hmem p).2 hp, (mem_neighbors _ _ _).2 ⟨hb, ha⟩, he⟩

/-! ## Board reads and writes -/

theorem cloneBoard_eq (b : Board) : cloneBoard b = b := by
  unfold cloneBoard; simp

theorem cellAt_setCell (b : Board) (hwf : WellFormed b) (x y : Int) (hin : OnBoard (x, y))
    (v : Cell) (x' y' : Int) :
    cellAt (setCell b x y v) x' y' = if x' = x ∧ y' = y then v else cellAt b x' y' := by
  obtain ⟨h1, h2, h3, h4⟩ := hin
  simp only at h1 h2 h3 h4
  have hxy : ¬ (x < 0 ∨ y < 0) := by omega
  unfold cellAt setCell
  rw [if_neg hxy]
  by_cases hneg : x' < 0 ∨ y' < 0
  · rw [if_pos hneg, if_pos hneg]
    have : ¬ (x' = x ∧ y' = y) := by omega
    rw [if_neg this]
  · rw [if_neg hneg, if_neg hneg]
    have hylen : y.toNat < b.length := by rw [hwf.1]; omega
    have hrow : (b.getD y.toNat []).length = 9 := by
      apply hwf.2
      rw [List.getD_eq_getElem _ _ hylen]
      exact List.getElem_mem _
    simp only [List.getD_eq_getElem?_getD, List.getElem?_set]
    by_cases hy : y.toNat = y'.toNat
    · have hy' : y' = y := by omega
      subst hy'
      simp only [hy, hylen, if_true, Option.getD_some, List.getElem?_set, true_and]
      by_cases hx : x.toNat = x'.toNat
      · have hx' : x' = x := by omega
        subst hx'
        have hxlen : x'.toNat < (b[y'.toNat]?.getD []).length := by
          have := hrow; rw [List.getD_eq_getElem?_getD] at this; omega
        simp [hxlen]
      · have hx' : ¬ x' = x := by omega
        simp [hx, hx']
    · have hy' : ¬ y' = y := by omega
      simp [hy, hy']

theorem wellFormed_setCell (b : Board) (hwf : WellFormed b) (x y : Int) (v : Cell) :
    WellFormed (setCell b x y v) := by
  unfold setCell
  split
  · exact hwf
  · by_cases hy : y.toNat < b.length
    · refine ⟨by rw [List.length_set]; exact hwf.1, ?_⟩
      intro row hrow
      rcases List.mem_or_eq_of_mem_set hrow with h | h
      · exact hwf.2 row h
      · subst h
        rw [List.length_set]
        apply hwf.2
        rw [List.getD_eq_getElem _ _ hy]
        exact List.getElem_mem _
    · rw [List.set_eq_of_length_le (by omega)]
      exact hwf

theorem removeStones_spec (stones : List Coord) :
    ∀ b : Board, WellFormed b → (∀ p ∈ stones, OnBoard p) →
      WellFormed (removeStones b stones) ∧
      ∀ x y, cellAt (removeStones b stones) x y =
        if (x, y) ∈ stones then EMPTY else cellAt b x y := by
  induction stones with
  | nil => intro b hwf _; exact ⟨hwf, by simp [removeStones]⟩
  | cons p ps ih =>
    intro b hwf hon
    have hp : OnBoard (p.1, p.2) := hon p (List.mem_cons_self _ _)
    obtain ⟨i1, i2⟩ := ih (setCell b p.1 p.2 EMPTY) (wellFormed_setCell b hwf _ _ _)
      (fun q hq => hon q (List.mem_cons_of_mem _ hq))
    have hrs : removeStones b (p :: ps) = removeStones (setCell b p.1 p.2 EMPTY) ps := rfl
    rw [hrs]
    refine ⟨i1, fun x y => ?_⟩
    rw [i2 x y, cellAt_setCell b hwf p.1 p.2 hp]
    by_cases h1 : (x, y) ∈ ps
    · simp [h1]
    · by_cases h2 : x = p.1 ∧ y = p.2
      · have : (x, y) = p := by obtain ⟨rfl, rfl⟩ := h2; rfl
        simp [h2, this]
      · have : ¬ (x, y) = p := by
          rintro rfl; exact h2 ⟨rfl, rfl⟩
        simp [h1, h2, this]

theorem cellAt_offBoard (b : Board) (hwf : WellFormed b) (x y : Int) (h : ¬ OnBoard (x, y)) :
    cellAt b x y = EMPTY := by
  unfold cellAt
  split
  · rfl
  · rename_i hneg
    simp only [OnBoard] at h
    by_cases hy : y.toNat < b.length
    · have hrow : (b.getD y.toNat []).length = 9 := by
        apply hwf.2
        rw [List.getD_eq_getElem _ _ hy]
        exact List.getElem_mem _
      rw [hwf.1] at hy
      apply List.getD_eq_default
      omega
    · have : b.getD y.toNat [] = [] := List.getD_eq_default _ _ (by omega)
      rw [this]
      rfl

/-! ## Groups as equivalence classes -/

theorem InGroup.refl (b : Board) (s : Coord) : InGroup b s s :=
  Relation.ReflTransGen.refl

theorem InGroup.color {b : Board} {s p : Coord} (h : InGroup b s p) :
    cellAt b p.1 p.2 = cellAt b s.1 s.2 := by
  induction h with
  | refl => rfl
  | tail _ hstep _ => exact hstep.2.2

theorem InGroup.onBoard {b : Board} {s p : Coord} (hs : OnBoard s) (h : InGroup b s p) :
    OnBoard p := by
  induction h with
  | refl => exact hs
  | tail _ hstep _ => exact hstep.1

theorem InGroup.trans {b : Board} {s p q : Coord} (h1 : InGroup b s p) (h2 : InGroup b p q) :
    InGroup b s q := by
  have hc := h1.color
  unfold InGroup at *
  rw [hc] at h2
  exact Relation.ReflTransGen.trans h1 h2

theorem InGroup.backward {b : Board} {s p : Coord} (hs : OnBoard s) (h : InGroup b s p) :
    InGroup b p s := by
  have hc := h.color
  unfold InGroup at *
  rw [hc]
  induction h with
  | refl => exact Relation.ReflTransGen.refl
  | tail hsp hstep ih =>
    rename_i u v
    have hu : OnBoard u := InGroup.onBoard hs hsp
    have hcu : cellAt b u.1 u.2 = cellAt b s.1 s.2 := InGroup.color hsp
    exact Relation.ReflTransGen.head ⟨hu, hstep.2.1.symm, hcu⟩ (ih hcu)

theorem InGroup.step {b : Board} {p q : Coord} (hq : OnBoard q) (ha : Adj4 p q)
    (hc : cellAt b q.1 q.2 = cellAt b p.1 p.2) : InGroup b p q :=
  Relation.ReflTransGen.single ⟨hq, ha, hc⟩

/-- Groups only depend on the cells read through `cellAt`. -/
theorem InGroup.congr {b b' : Board} {s p : Coord} (h : InGroup b s p)
    (hcell : ∀ q, InGroup b s q → cellAt b' q.1 q.2 = cellAt b q.1 q.2) : InGroup b' s p := by
  have hs := hcell s (InGroup.refl b s)
  unfold InGroup
  rw [hs]
  have : ∀ q, InGroup b s q → Relation.ReflTransGen (StoneStep b' (cellAt b s.1 s.2)) s q := by
    intro q hq
    induction hq with
    | refl => exact Relation.ReflTransGen.refl
    | tail hsu hstep ih =>
      rename_i u v
      have hv : InGroup b s v := Relation.ReflTransGen.tail hsu hstep
      exact Relation.ReflTransGen.tail ih ⟨hstep.1, hstep.2.1, by rw [hcell v hv]; exact hstep.2.2⟩
  exact this p h

/-! ## Removing whole groups -/

section RemovalLemmas

variable {b1 b2 : Board} {R : List Coord} {o : Cell}

theorem Removal.not_mem (h : Removal b1 b2 R o) {q : Coord}
    (hq : cellAt b2 q.1 q.2 ≠ EMPTY) : q ∉ R := by
  intro hmem
  have := h.cells q.1 q.2
  rw [if_pos hmem] at this
  exact hq this

theorem Removal.cell_eq (h : Removal b1 b2 R o) {q : Coord} (hq : q ∉ R) :
    cellAt b2 q.1 q.2 = cellAt b1 q.1 q.2 := by
  have := h.cells q.1 q.2
  rwa [if_neg hq] at this

theorem Removal.empty_mono (h : Removal b1 b2 R o) {q : Coord}
    (hq : cellAt b1 q.1 q.2 = EMPTY) : cellAt b2 q.1 q.2 = EMPTY := by
  have := h.cells q.1 q.2
  split at this
  · exact this
  · rw [this, hq]

theorem Removal.inGroup_iff (h : Removal b1 b2 R o) {s : Coord} (hs : OnBoard s)
    (hocc : cellAt b2 s.1 s.2 ≠ EMPTY) (q : Coord) : InGroup b2 s q ↔ InGroup b1 s q := by
  have hsR : s ∉ R := h.not_mem hocc
  constructor
  · intro hg
    apply hg.congr
    intro u hu
    have : cellAt b2 u.1 u.2 ≠ EMPTY := by rw [hu.color]; exact hocc
    exact (h.cell_eq (h.not_mem this)).symm
  · intro hg
    apply hg.congr
    intro u hu
    apply h.cell_eq
    intro huR
    exact hsR (h.closed u huR s (hu.backward hs))

theorem Removal.liberty_mono (h : Removal b1 b2 R o) {s : Coord} (hs : OnBoard s)
    (hocc : cellAt b2 s.1 s.2 ≠ EMPTY) {l : Coord} (hl : IsLiberty b1 s l) :
    IsLiberty b2 s l := by
  obtain ⟨hb, he, p, hp, ha⟩ := hl
  exact ⟨hb, h.empty_mono he, p, (h.inGroup_iff hs hocc p).2 hp, ha⟩

theorem Removal.liberty_back (h : Removal b1 b2 R o) {s : Coord} (hs : OnBoard s)
    (hcol : cellAt b2 s.1 s.2 = o) (ho : o ≠ EMPTY) {l : Coord} (hl : IsLiberty b2 s l) :
    IsLiberty b1 s l := by
  have hocc : cellAt b2 s.1 s.2 ≠ EMPTY := by rw [hcol]; exact ho
  obtain ⟨hb, he, p, hp, ha⟩ := hl
  have hp1 : InGroup b1 s p := (h.inGroup_iff hs hocc p).1 hp
  have hpocc : cellAt b2 p.1 p.2 ≠ EMPTY := by rw [hp.color]; exact hocc
  have hpR : p ∉ R := h.not_mem hpocc
  have hpc : cellAt b1 p.1 p.2 = o := by rw [← h.cell_eq hpR, hp.color, hcol]
  refine ⟨hb, ?_, p, hp1, ha⟩
  by_cases hlR : l ∈ R
  · exfalso
    apply hpR
    apply h.closed l hlR p
    exact InGroup.step (InGroup.onBoard hs hp1) ha.symm (by rw [hpc, h.color l hlR])
  · rw [← h.cell_eq hlR]; exact he

end RemovalLemmas

/-! ## The capture loop of `tryPlay` -/

theorem opp_ne_empty {color : Cell} (hc : color = BLACK ∨ color = WHITE) : opp color ≠ EMPTY := by
  rcases hc with rfl | rfl <;> decide

theorem opp_ne_self {color : Cell} (hc : color = BLACK ∨ color = WHITE) : opp color ≠ color := by
  rcases hc with rfl | rfl <;> decide

theorem opp_cases {color : Cell} (hc : color = BLACK ∨ color = WHITE) (k : Cell)
    (hk : k ≠ EMPTY) : k = color ∨ k = opp color := by
  rcases hc with rfl | rfl <;> cases k <;> simp_all [opp]

theorem capturedVia_append (b1 : Board) (color : Cell) (ns : List Coord) (n q : Coord) :
    CapturedVia b1 color (ns ++ [n]) q ↔
      CapturedVia b1 color ns q ∨
        (OnBoard n ∧ cellAt b1 n.1 n.2 = opp color ∧ InGroup b1 n q ∧ NoLiberty b1 n) := by
  unfold CapturedVia
  constructor
  · rintro ⟨m, hm, h⟩
    rcases List.mem_append.1 hm with hm | hm
    · exact Or.inl ⟨m, hm, h⟩
    · rw [List.mem_singleton] at hm; subst hm; exact Or.inr h
  · rintro (⟨m, hm, h⟩ | h)
    · exact ⟨m, List.mem_append_left _ hm, h⟩
    · exact ⟨n, by simp, h⟩

theorem capInv_init (b1 : Board) (hwf : WellFormed b1) (color : Cell) :
    CapInv b1 color [] { b2 := b1, capturedCount := 0, capturedStones := [] } := by
  refine ⟨hwf, ⟨by simp, by simp, by simp, by simp⟩, List.nodup_nil, rfl, ?_⟩
  intro q
  simp [CapturedVia]

theorem captureStep_inv (b1 : Board) (color : Cell) (hc : color = BLACK ∨ color = WHITE)
    (ns : List Coord) (acc : PlayResult) (n : Coord) (hn : OnBoard n)
    (hinv : CapInv b1 color ns acc) : CapInv b1 color (ns ++ [n]) (captureStep color acc n) := by
  have ho := opp_ne_empty hc
  have hrem := hinv.removal
  unfold captureStep
  by_cases h1 : cellAt acc.b2 n.1 n.2 = opp color
  · have hocc : cellAt acc.b2 n.1 n.2 ≠ EMPTY := by rw [h1]; exact ho
    have hnR : n ∉ acc.capturedStones := hrem.not_mem hocc
    have hn1 : cellAt b1 n.1 n.2 = opp color := by rw [← hrem.cell_eq hnR]; exact h1
    obtain ⟨g1, g2, -, g4⟩ := getGroup_spec acc.b2 n.1 n.2 hn hocc
    have hgrp : ∀ q, q ∈ (getGroupAndLiberties acc.b2 n.1 n.2).stones ↔ InGroup b1 n q := by
      intro q; rw [g2 q]; exact hrem.inGroup_iff hn hocc q
    have hlib : (getGroupAndLiberties acc.b2 n.1 n.2).liberties.length = 0 ↔ NoLiberty b1 n := by
      rw [List.length_eq_zero]
      constructor
      · intro h l hl
        have := (g4 l).2 (hrem.liberty_mono hn hocc hl)
        rw [h] at this
        simp at this
      · intro h
        apply List.eq_nil_iff_forall_not_mem.2
        intro l hl
        exact h l (hrem.liberty_back hn h1 ho ((g4 l).1 hl))
    rw [if_pos h1]
    dsimp only
    by_cases h2 : (getGroupAndLiberties acc.b2 n.1 n.2).liberties.length = 0
    · rw [if_pos h2]
      have hnl : NoLiberty b1 n := hlib.1 h2
      have hon : ∀ p ∈ (getGroupAndLiberties acc.b2 n.1 n.2).stones, OnBoard p :=
        fun p hp => InGroup.onBoard hn ((hgrp p).1 hp)
      obtain ⟨r1, r2⟩ := removeStones_spec _ acc.b2 hinv.wf hon
      have hdisj : ∀ p, p ∈ acc.capturedStones →
          p ∉ (getGroupAndLiberties acc.b2 n.1 n.2).stones := by
        intro p hp hp2
        exact hnR (hrem.closed p hp n (((hgrp p).1 hp2).backward hn))
      refine ⟨r1, ⟨?_, ?_, ?_, ?_⟩, ?_, ?_, ?_⟩
      · intro x y
        rw [r2 x y, hrem.cells x y]
        simp only [List.mem_append]
        by_cases ha : (x, y) ∈ acc.capturedStones
        · simp [ha]
        · by_cases hb : (x, y) ∈ (getGroupAndLiberties acc.b2 n.1 n.2).stones
          · simp [hb]
          · simp [ha, hb]
      · intro q hq
        rcases List.mem_append.1 hq with hq | hq
        · exact hrem.color q hq
        · rw [((hgrp q).1 hq).color, hn1]
      · intro q hq p hp
        rcases List.mem_append.1 hq with hq | hq
        · exact List.mem_append_left _ (hrem.closed q hq p hp)
        · exact List.mem_append_right _ ((hgrp p).2 (((hgrp q).1 hq).trans hp))
      · intro q hq
        rcases List.mem_append.1 hq with hq | hq
        · exact hrem.onBoard q hq
        · exact hon q hq
      · exact List.Nodup.append hinv.nodup g1 (fun p hp hp2 => hdisj p hp hp2)
      · simp only [List.length_append]
        rw [hinv.count]
      · intro q
        rw [capturedVia_append, List.mem_append, hinv.mem q, hgrp q]
        constructor
        · rintro (h | h)
          · exact Or.inl h
          · exact Or.inr ⟨hn, hn1, h, hnl⟩
        · rintro (h | h)
          · exact Or.inl h
          · exact Or.inr h.2.2.1
    · rw [if_neg h2]
      refine ⟨hinv.wf, hrem, hinv.nodup, hinv.count, ?_⟩
      intro q
      rw [capturedVia_append, hinv.mem q]
      constructor
      · exact Or.inl
      · rintro (h | h)
        · exact h
        · exact absurd (hlib.2 h.2.2.2) h2
  · rw [if_neg h1]
    refine ⟨hinv.wf, hrem, hinv.nodup, hinv.count, ?_⟩
    intro q
    rw [capturedVia_append, hinv.mem q]
    constructor
    · exact Or.inl
    · rintro (h | ⟨_, hn1, hg, hnl⟩)
      · exact h
      · have hnR : n ∈ acc.capturedStones := by
          by_contra hnR
          exact h1 (by rw [hrem.cell_eq hnR]; exact hn1)
        rw [← hinv.mem q]
        exact hrem.closed n hnR q hg

theorem captureFold_inv (b1 : Board) (color : Cell) (hc : color = BLACK ∨ color = WHITE)
    (ms : List Coord) : ∀ (ns : List Coord) (acc : PlayResult), (∀ n ∈ ms, OnBoard n) →
      CapInv b1 color ns acc → CapInv b1 color (ns ++ ms) (ms.foldl (captureStep color) acc) := by
  induction ms with
  | nil => intro ns acc _ h; simpa using h
  | cons m ms ih =>
    intro ns acc hon h
    have h1 := captureStep_inv b1 color hc ns acc m (hon m (List.mem_cons_self _ _)) h
    have h2 := ih (ns ++ [m]) _ (fun n hn => hon n (List.mem_cons_of_mem _ hn)) h1
    simpa using h2

/-! ## `tryPlay` -/

theorem captured_iff_via (b1 : Board) (x y : Int) (color : Cell) (q : Coord) :
    Captured b1 x y color q ↔ CapturedVia b1 color (neighbors x y) q := by
  unfold Captured CapturedVia
  constructor
  · rintro ⟨n, h1, h2, h3⟩
    exact ⟨n, (mem_neighbors _ _ _).2 ⟨h1, h2⟩, h1, h3⟩
  · rintro ⟨n, hn, h1, h3⟩
    exact ⟨n, h1, ((mem_neighbors _ _ _).1 hn).2, h3⟩

theorem captureLoop_inv (b : Board) (hwf : WellFormed b) (x y : Int) (color : Cell)
    (hc : color = BLACK ∨ color = WHITE) :
    CapInv (setCell b x y color) color (neighbors x y) (captureLoop b x y color) := by
  have h := captureFold_inv (setCell b x y color) color hc (neighbors x y) []
    { b2 := setCell b x y color, capturedCount := 0, capturedStones := [] }
    (fun n hn => ((mem_neighbors _ _ _).1 hn).1)
    (capInv_init _ (wellFormed_setCell b hwf x y color) color)
  simpa [captureLoop, cloneBoard_eq] using h

theorem tryPlay_eq (b : Board) (x y : Int) (color : Cell) (hin : OnBoard (x, y))
    (hemp : cellAt b x y = EMPTY) :
    tryPlay b x y color =
      if (getGroupAndLiberties (captureLoop b x y color).b2 x y).liberties.length = 0
      then .error .suicide else .ok (captureLoop b x y color) := by
  unfold tryPlay
  simp [(inBounds_iff x y).2 hin, hemp]

theorem tryPlay_ok (b : Board) (x y : Int) (color : Cell) (r : PlayResult)
    (h : tryPlay b x y color = .ok r) :
    OnBoard (x, y) ∧ cellAt b x y = EMPTY ∧ r = captureLoop b x y color ∧
      (getGroupAndLiberties r.b2 x y).liberties.length ≠ 0 := by
  unfold tryPlay at h
  by_cases h1 : inBounds x y = true
  · by_cases h2 : cellAt b x y = EMPTY
    · simp only [h1, h2, Bool.not_true, Bool.false_eq_true, if_false, ne_eq, not_true_eq_false] at h
      split at h
      · cases h
      · rename_i h3
        injection h with h
        subst h
        exact ⟨(inBounds_iff x y).1 h1, h2, rfl, h3⟩
    · simp [h1, h2] at h
  · simp [h1] at h

/-- Cells of the board returned by the capture loop. -/
theorem captureLoop_cells (b : Board) (hwf : WellFormed b) (x y : Int) (color : Cell)
    (hc : color = BLACK ∨ color = WHITE) (hin : OnBoard (x, y)) :
    cellAt (captureLoop b x y color).b2 x y = color ∧
    (∀ q, Captured (setCell b x y color) x y color q →
      cellAt (captureLoop b x y color).b2 q.1 q.2 = EMPTY) ∧
    (∀ q, q ≠ (x, y) → ¬ Captured (setCell b x y color) x y color q →
      cellAt (captureLoop b x y color).b2 q.1 q.2 = cellAt b q.1 q.2) := by
  have hinv := captureLoop_inv b hwf x y color hc
  have hrem := hinv.removal
  have hb1 : ∀ u v, cellAt (setCell b x y color) u v =
      if u = x ∧ v = y then color else cellAt b u v := cellAt_setCell b hwf x y hin color
  refine ⟨?_, ?_, ?_⟩
  · have hnot : (x, y) ∉ (captureLoop b x y color).capturedStones := by
      intro hmem
      have := hrem.color _ hmem
      rw [hb1] at this
      simp only [and_self, if_true] at this
      exact opp_ne_self hc this.symm
    have := hrem.cell_eq hnot
    simp only at this
    rw [this, hb1]
    simp
  · intro q hq
    have hmem := (hinv.mem q).2 ((captured_iff_via _ _ _ _ _).1 hq)
    have := hrem.cells q.1 q.2
    rwa [if_pos hmem] at this
  · intro q hq hcap
    have hmem : q ∉ (captureLoop b x y color).capturedStones :=
      fun h => hcap ((captured_iff_via _ _ _ _ _).2 ((hinv.mem q).1 h))
    rw [hrem.cell_eq hmem, hb1]
    have : ¬ (q.1 = x ∧ q.2 = y) := by
      rintro ⟨h1, h2⟩
      exact hq (Prod.ext h1 h2)
    rw [if_neg this]

theorem mem_removed_filter (old new : Board) (q : Coord) :
    q ∈ allCells.filter
      (fun q => decide (cellAt old q.1 q.2 ≠ EMPTY ∧ cellAt new q.1 q.2 = EMPTY)) ↔
    OnBoard q ∧ cellAt old q.1 q.2 ≠ EMPTY ∧ cellAt new q.1 q.2 = EMPTY := by
  rw [List.mem_filter, mem_allCells]
  simp

/-- The capture loop counts exactly the stones that left the board. -/
theorem captureLoop_count (b : Board) (hwf : WellFormed b) (x y : Int) (color : Cell)
    (hc : color = BLACK ∨ color = WHITE) (hin : OnBoard (x, y)) (hemp : cellAt b x y = EMPTY) :
    (captureLoop b x y color).capturedCount = removedCount b (captureLoop b x y color).b2 := by
  have hinv := captureLoop_inv b hwf x y color hc
  have hrem := hinv.removal
  have hb1 : ∀ u v, cellAt (setCell b x y color) u v =
      if u = x ∧ v = y then color else cellAt b u v := cellAt_setCell b hwf x y hin color
  rw [hinv.count]
  unfold removedCount
  apply List.Perm.length_eq
  rw [List.perm_ext_iff_of_nodup hinv.nodup (allCells_nodup.filter _)]
  intro q
  rw [mem_removed_filter]
  constructor
  · intro hq
    have hcol := hrem.color q hq
    have hcell := hrem.cells q.1 q.2
    rw [if_pos hq] at hcell
    refine ⟨hrem.onBoard q hq, ?_, hcell⟩
    rw [hb1] at hcol
    split at hcol
    · exact absurd hcol.symm (opp_ne_self hc)
    · rw [hcol]; exact opp_ne_empty hc
  · rintro ⟨_, h1, h2⟩
    by_contra hq
    have hcell := hrem.cell_eq hq
    rw [h2, hb1] at hcell
    split at hcell
    · rename_i hxy
      rw [hxy.1, hxy.2] at h1
      exact h1 hemp
    · exact h1 hcell.symm

/-! ## `boardToString` -/

theorem foldl_push_data (f : Int → Char) (l : List Int) :
    ∀ s : String, (l.foldl (fun s x => s.push (f x)) s).data = s.data ++ l.map f := by
  induction l with
  | nil => intro s; simp
  | cons a l ih =>
    intro s
    rw [List.foldl_cons, ih]
    simp [String.data_push]

theorem foldl_rows_data (g : Int → Int → Char) (rows cols : List Int) :
    ∀ s : String,
      (rows.foldl (fun s y => cols.foldl (fun s x => s.push (g x y)) s) s).data =
        s.data ++ rows.flatMap (fun y => cols.map (fun x => g x y)) := by
  induction rows with
  | nil => intro s; simp
  | cons y rows ih =>
    intro s
    rw [List.foldl_cons, ih, foldl_push_data (fun x => g x y)]
    simp

theorem boardToString_data (b : Board) :
    (boardToString b).data = allCells.map (fun p => cellChar (cellAt b p.1 p.2)) := by
  unfold boardToString
  rw [foldl_rows_data (fun x y => cellChar (cellAt b x y))]
  have he : ("" : String).data = [] := rfl
  simp only [allCells, List.map_flatMap, List.map_map, he, List.nil_append]
  rfl

theorem boardToString_ne_empty (b : Board) : boardToString b ≠ "" := by
  intro h
  have h1 := congrArg (fun s => s.data.length) h
  simp only [boardToString_data, List.length_map, length_allCells] at h1
  simp at h1

theorem cellChar_injective : Function.Injective cellChar := by
  intro a b h
  cases a <;> cases b <;> first | rfl | (exact absurd h (by decide))

theorem boardToString_eq_iff (b b' : Board) :
    boardToString b = boardToString b' ↔
      ∀ p, OnBoard p → cellAt b p.1 p.2 = cellAt b' p.1 p.2 := by
  constructor
  · intro h p hp
    have h1 := congrArg String.data h
    rw [boardToString_data, boardToString_data] at h1
    have := List.map_inj_left.1 h1 p ((mem_allCells p).2 hp)
    exact cellChar_injective this
  · intro h
    apply String.ext
    rw [boardToString_data, boardToString_data]
    apply List.map_congr_left
    intro p hp
    rw [h p ((mem_allCells p).1 hp)]

/-- Two 9×9 boards with the same cells are the same array of rows. -/
theorem board_ext (b b' : Board) (hwf : WellFormed b) (hwf' : WellFormed b')
    (h : ∀ p, OnBoard p → cellAt b p.1 p.2 = cellAt b' p.1 p.2) : b = b' := by
  apply List.ext_getElem (by rw [hwf.1, hwf'.1])
  intro j hj hj'
  have hr : (b[j]).length = 9 := hwf.2 _ (List.getElem_mem _)
  have hr' : (b'[j]).length = 9 := hwf'.2 _ (List.getElem_mem _)
  apply List.ext_getElem (by rw [hr, hr'])
  intro i hi hi'
  have hj9 : j < 9 := by rw [← hwf.1]; exact hj
  have hi9 : i < 9 := by rw [← hr]; exact hi
  have := h ((i : Int), (j : Int)) ⟨by simp, by simp; omega, by simp, by simp; omega⟩
  unfold cellAt at this
  have hneg : ¬ ((i : Int) < 0 ∨ (j : Int) < 0) := by omega
  simp only [hneg, if_false, Int.toNat_ofNat] at this
  rw [List.getD_eq_getElem _ _ hj, List.getD_eq_getElem _ _ hj',
    List.getD_eq_getElem _ _ hi, List.getD_eq_getElem _ _ hi'] at this
  exact this

theorem boardToString_inj (b b' : Board) (hwf : WellFormed b) (hwf' : WellFormed b') :
    boardToString b = boardToString b' ↔ b = b' := by
  constructor
  · intro h
    exact board_ext b b' hwf hwf' ((boardToString_eq_iff b b').1 h)
  · rintro rfl; rfl

/-! ## Consequences for `tryPlay` -/

theorem inGroup_iff_of_mem {b : Board} {s q : Coord} (hs : OnBoard s) (hq : InGroup b s q)
    (p : Coord) : InGroup b q p ↔ InGroup b s p :=
  ⟨fun h => hq.trans h, fun h => (hq.backward hs).trans h⟩

theorem isLiberty_iff_of_mem {b : Board} {s q : Coord} (hs : OnBoard s) (hq : InGroup b s q)
    (l : Coord) : IsLiberty b q l ↔ IsLiberty b s l := by
  unfold IsLiberty
  constructor
  · rintro ⟨h1, h2, p, hp, ha⟩
    exact ⟨h1, h2, p, (inGroup_iff_of_mem hs hq p).1 hp, ha⟩
  · rintro ⟨h1, h2, p, hp, ha⟩
    exact ⟨h1, h2, p, (inGroup_iff_of_mem hs hq p).2 hp, ha⟩

theorem IsLiberty.congr_all {b b' : Board} {s l : Coord}
    (h : ∀ x y, cellAt b' x y = cellAt b x y) (hl : IsLiberty b s l) : IsLiberty b' s l := by
  obtain ⟨h1, h2, p, hp, ha⟩ := hl
  exact ⟨h1, by rw [h]; exact h2, p, hp.congr (fun q _ => h q.1 q.2), ha⟩

theorem liberties_length_eq_zero_iff (b : Board) (x y : Int) (hin : OnBoard (x, y))
    (hocc : cellAt b x y ≠ EMPTY) :
    (getGroupAndLiberties b x y).liberties.length = 0 ↔ NoLiberty b (x, y) := by
  obtain ⟨-, -, -, g4⟩ := getGroup_spec b x y hin hocc
  rw [List.length_eq_zero]
  constructor
  · intro h l hl
    have := (g4 l).2 hl
    rw [h] at this
    simp at this
  · intro h
    apply List.eq_nil_iff_forall_not_mem.2
    intro l hl
    exact h l ((g4 l).1 hl)

theorem ne_empty_of_color {color : Cell} (hc : color = BLACK ∨ color = WHITE) : color ≠ EMPTY := by
  rcases hc with rfl | rfl <;> decide

/-- The suicide test of `tryPlay`, expressed on the board that holds the
placed stone before any capture. -/
theorem suicide_iff (b : Board) (hwf : WellFormed b) (x y : Int) (color : Cell)
    (hc : color = BLACK ∨ color = WHITE) (hin : OnBoard (x, y)) (hemp : cellAt b x y = EMPTY) :
    tryPlay b x y color = .error .suicide ↔
      (¬ ∃ q, Captured (setCell b x y color) x y color q) ∧
        NoLiberty (setCell b x y color) (x, y) := by
  have hinv := captureLoop_inv b hwf x y color hc
  have hrem := hinv.removal
  obtain ⟨hxy, hcap, -⟩ := captureLoop_cells b hwf x y color hc hin
  have hocc : cellAt (captureLoop b x y color).b2 x y ≠ EMPTY := by
    rw [hxy]; exact ne_empty_of_color hc
  have h1 : tryPlay b x y color = .error .suicide ↔
      NoLiberty (captureLoop b x y color).b2 (x, y) := by
    rw [tryPlay_eq b x y color hin hemp, ← liberties_length_eq_zero_iff _ x y hin hocc]
    split
    · simp [*]
    · simp [*]
  rw [h1]
  constructor
  · intro hno
    refine ⟨?_, ?_⟩
    · rintro ⟨q, n, hn, ha, hcol, hg, hnl⟩
      have hncap : Captured (setCell b x y color) x y color n :=
        ⟨n, hn, ha, hcol, InGroup.refl _ _, hnl⟩
      exact hno n ⟨hn, hcap n hncap, (x, y), InGroup.refl _ _, ha⟩
    · intro l hl
      exact hno l (hrem.liberty_mono hin hocc hl)
  · rintro ⟨hnc, hnl⟩ l hl
    have hR : ∀ q, q ∉ (captureLoop b x y color).capturedStones := by
      intro q hq
      exact hnc ⟨q, (captured_iff_via _ _ _ _ _).2 ((hinv.mem q).1 hq)⟩
    have hcells : ∀ u v, cellAt (setCell b x y color) u v =
        cellAt (captureLoop b x y color).b2 u v := by
      intro u v
      rw [hrem.cells u v, if_neg (hR (u, v))]
    exact hnl l (hl.congr_all hcells)

/-- Every group has a liberty on a board returned by `tryPlay`, when this
held on the board it was given. -/
theorem tryPlay_alive (b : Board) (hwf : WellFormed b) (halive : AllGroupsAlive b)
    (color : Cell) (hc : color = BLACK ∨ color = WHITE) (x y : Int) (r : PlayResult)
    (h : tryPlay b x y color = .ok r) : AllGroupsAlive r.b2 := by
  obtain ⟨hin, hemp, rfl, hlib⟩ := tryPlay_ok b x y color r h
  have hinv := captureLoop_inv b hwf x y color hc
  have hrem := hinv.removal
  obtain ⟨hxy, -, -⟩ := captureLoop_cells b hwf x y color hc hin
  have hb1 : ∀ u v, cellAt (setCell b x y color) u v =
      if u = x ∧ v = y then color else cellAt b u v := cellAt_setCell b hwf x y hin color
  have hoccxy : cellAt (captureLoop b x y color).b2 x y ≠ EMPTY := by
    rw [hxy]; exact ne_empty_of_color hc
  have hown : ∃ l, IsLiberty (captureLoop b x y color).b2 (x, y) l := by
    by_contra hno
    apply hlib
    rw [liberties_length_eq_zero_iff _ x y hin hoccxy]
    intro l hl
    exact hno ⟨l, hl⟩
  have hb1ne : ∀ u : Coord, cellAt b u.1 u.2 ≠ EMPTY →
      cellAt (setCell b x y color) u.1 u.2 = cellAt b u.1 u.2 := by
    intro u hu
    rw [hb1]
    split
    · rename_i hxy'
      rw [hxy'.1, hxy'.2] at hu
      exact absurd hemp hu
    · rfl
  intro p hp hocc
  by_cases hpxy : p = (x, y)
  · subst hpxy; exact hown
  have hpR : p ∉ (captureLoop b x y color).capturedStones := hrem.not_mem hocc
  have hp1 : cellAt (captureLoop b x y color).b2 p.1 p.2 =
      cellAt (setCell b x y color) p.1 p.2 := hrem.cell_eq hpR
  have hpb : cellAt (setCell b x y color) p.1 p.2 = cellAt b p.1 p.2 := by
    rw [hb1]
    have : ¬ (p.1 = x ∧ p.2 = y) := fun hh => hpxy (Prod.ext hh.1 hh.2)
    rw [if_neg this]
  have hoccb : cellAt b p.1 p.2 ≠ EMPTY := by rw [← hpb, ← hp1]; exact hocc
  obtain ⟨l, hlb, hle, q, hq, ha⟩ := halive p hp hoccb
  have hq1 : InGroup (setCell b x y color) p q := by
    apply hq.congr
    intro u hu
    apply hb1ne
    rw [hu.color]; exact hoccb
  have hq2 : InGroup (captureLoop b x y color).b2 p q := (hrem.inGroup_iff hp hocc q).2 hq1
  have hqb : OnBoard q := InGroup.onBoard hp hq
  have hqocc : cellAt (captureLoop b x y color).b2 q.1 q.2 ≠ EMPTY := by
    rw [hq2.color]; exact hocc
  by_cases hl : l = (x, y)
  · subst hl
    rcases opp_cases hc _ hocc with hk | hk
    · obtain ⟨l', hl1, hl2, p', hp', ha'⟩ := hown
      have hstep : InGroup (captureLoop b x y color).b2 q (x, y) :=
        InGroup.step hin ha (by rw [hxy, hq2.color, hk])
      exact ⟨l', hl1, hl2, p', (hq2.trans hstep).trans hp', ha'⟩
    · have hqR : q ∉ (captureLoop b x y color).capturedStones := hrem.not_mem hqocc
      have hqc : cellAt (setCell b x y color) q.1 q.2 = opp color := by
        rw [← hrem.cell_eq hqR, hq2.color, hk]
      have hex : ∃ l', IsLiberty (setCell b x y color) q l' := by
        by_contra hno
        apply hqR
        rw [hinv.mem q]
        refine ⟨q, (mem_neighbors _ _ _).2 ⟨hqb, ha.symm⟩, hqb, hqc, InGroup.refl _ _, ?_⟩
        intro l' hl'
        exact hno ⟨l', hl'⟩
      obtain ⟨l', hl'⟩ := hex
      obtain ⟨hl1, hl2, p', hp', ha'⟩ := hrem.liberty_mono hqb hqocc hl'
      exact ⟨l', hl1, hl2, p', hq2.trans hp', ha'⟩
  · refine ⟨l, hlb, ?_, q, hq2, ha⟩
    apply hrem.empty_mono
    rw [hb1]
    have : ¬ (l.1 = x ∧ l.2 = y) := fun hh => hl (Prod.ext hh.1 hh.2)
    rw [if_neg this]
    exact hle

theorem tryPlay_wellFormed (b : Board) (hwf : WellFormed b) (color : Cell)
    (hc : color = BLACK ∨ color = WHITE) (x y : Int) (r : PlayResult)
    (h : tryPlay b x y color = .ok r) : WellFormed r.b2 := by
  obtain ⟨-, -, rfl, -⟩ := tryPlay_ok b x y color r h
  exact (captureLoop_inv b hwf x y color hc).wf

/-! ## Session operations -/

theorem tryPlay_ne_ko (b : Board) (x y : Int) (color : Cell) :
    tryPlay b x y color ≠ .error .ko := by
  unfold tryPlay
  intro hr
  split at hr
  · cases hr
  · split at hr
    · cases hr
    · dsimp only at hr
      split at hr <;> cases hr

theorem isLegalMove_error_ko_iff (prev : String) (b : Board) (x y : Int) (color : Cell) :
    isLegalMove prev b x y color = .error .ko ↔
      ∃ r, tryPlay b x y color = .ok r ∧ prev ≠ "" ∧ boardToString r.b2 = prev := by
  have hne := tryPlay_ne_ko b x y color
  unfold isLegalMove
  cases hr : tryPlay b x y color with
  | error reason =>
    rw [hr] at hne
    constructor
    · intro h
      exact absurd h hne
    · rintro ⟨r, hr', -⟩
      cases hr'
  | ok r =>
    dsimp only
    split
    · rename_i hko
      constructor
      · intro _; exact ⟨r, rfl, hko⟩
      · intro _; rfl
    · rename_i hko
      constructor
      · intro h; cases h
      · rintro ⟨r', hr', hko'⟩
        injection hr' with hr'
        subst hr'
        exact absurd hko' hko

theorem isLegalMove_ok (prev : String) (b : Board) (x y : Int) (color : Cell) (next : PlayResult)
    (h : isLegalMove prev b x y color = .ok next) : tryPlay b x y color = .ok next := by
  unfold isLegalMove at h
  cases hr : tryPlay b x y color with
  | error reason => rw [hr] at h; cases h
  | ok r =>
    rw [hr] at h
    dsimp only at h
    split at h
    · cases h
    · injection h with h; rw [h]

theorem Captures.add_zero (c : Captures) (color : Cell) : c.add color 0 = c := by
  cases color <;> rfl

/-- The state after an accepted move. -/
theorem playMove_ok (s : Session) (x y : Int) (color : Cell) (next : PlayResult)
    (h : isLegalMove s.prevPosStr s.board x y color = .ok next) :
    playMove s x y color = (true,
      { s with
        history := { board := s.board, toPlay := s.toPlay, captures := s.captures,
                     consecutivePasses := s.consecutivePasses, lastMove := s.lastMove,
                     prevPosStr := s.prevPosStr } :: s.history,
        prevPosStr := boardToString s.board,
        board := next.b2,
        captures := s.captures.add color next.capturedCount,
        consecutivePasses := 0,
        lastMove := some { x := x, y := y, color := color },
        toPlay := opp color }) := by
  unfold playMove
  rw [h]
  dsimp only [pushHistory]
  rw [cloneBoard_eq]
  by_cases hcnt : next.capturedCount > 0
  · rw [if_pos hcnt]
  · rw [if_neg hcnt]
    have : next.capturedCount = 0 := by omega
    rw [this, Captures.add_zero]

theorem playMove_error (s : Session) (x y : Int) (color : Cell) (reason : Reason)
    (h : isLegalMove s.prevPosStr s.board x y color = .error reason) :
    playMove s x y color = (false, s) := by
  unfold playMove
  rw [h]

theorem playMove_true (s : Session) (x y : Int) (color : Cell)
    (h : (playMove s x y color).1 = true) :
    ∃ next, isLegalMove s.prevPosStr s.board x y color = .ok next := by
  cases hr : isLegalMove s.prevPosStr s.board x y color with
  | error reason =>
    rw [playMove_error s x y color reason hr] at h
    cases h
  | ok next => exact ⟨next, rfl⟩

theorem Captures.get_add_self (c : Captures) (color : Cell) (hc : color = BLACK ∨ color = WHITE)
    (n : Nat) : (c.add color n).get color = c.get color + n := by
  rcases hc with rfl | rfl <;> rfl

theorem Captures.get_add_opp (c : Captures) (color : Cell) (hc : color = BLACK ∨ color = WHITE)
    (n : Nat) : (c.add color n).get (opp color) = c.get (opp color) := by
  rcases hc with rfl | rfl <;> rfl

/-! ## The claims -/

/-- C1: for every board and every in-bounds occupied cell `(sx,sy)`,
`getGroupAndLiberties` returns as `stones` exactly the cells of the maximal
4-connected same-colour group of `(sx,sy)`, each listed once, and as
`liberties` exactly the empty cells 4-adjacent to a stone of that group, each
listed once; the two sets do not depend on the traversal: started from any
other stone of the group the function returns the same stones and the same
liberties up to order. -/
theorem getGroupAndLiberties_exact (b : Board) (sx sy : Int) (hin : inBounds sx sy = true)
    (hocc : cellAt b sx sy ≠ EMPTY) :
    (getGroupAndLiberties b sx sy).stones.Nodup ∧
    (∀ p, p ∈ (getGroupAndLiberties b sx sy).stones ↔ InGroup b (sx, sy) p) ∧
    (getGroupAndLiberties b sx sy).liberties.Nodup ∧
    (∀ l, l ∈ (getGroupAndLiberties b sx sy).liberties ↔ IsLiberty b (sx, sy) l) ∧
    (∀ q, InGroup b (sx, sy) q →
      (getGroupAndLiberties b q.1 q.2).stones.Perm (getGroupAndLiberties b sx sy).stones ∧
      (getGroupAndLiberties b q.1 q.2).liberties.Perm
        (getGroupAndLiberties b sx sy).liberties) := by
  have hs : OnBoard (sx, sy) := (inBounds_iff sx sy).1 hin
  obtain ⟨g1, g2, g3, g4⟩ := getGroup_spec b sx sy hs hocc
  refine ⟨g1, g2, g3, g4, ?_⟩
  intro q hq
  have hqb : OnBoard (q.1, q.2) := InGroup.onBoard hs hq
  have hqo : cellAt b q.1 q.2 ≠ EMPTY := by rw [hq.color]; exact hocc
  obtain ⟨k1, k2, k3, k4⟩ := getGroup_spec b q.1 q.2 hqb hqo
  constructor
  · rw [List.perm_ext_iff_of_nodup k1 g1]
    intro p
    rw [k2 p, g2 p]
    exact inGroup_iff_of_mem hs hq p
  · rw [List.perm_ext_iff_of_nodup k3 g3]
    intro l
    rw [k4 l, g4 l]
    exact isLiberty_iff_of_mem hs hq l

/-- C2: when `playMove(x,y,c)` succeeds for a stone colour `c`, the new board
holds `c` at `(x,y)`, is empty exactly at the stones of the opposing groups
adjacent to `(x,y)` that have no liberty once the stone is placed, and agrees
with the old board at every other cell; `captures[c]` grows by the number of
stones removed and the other colour's count is unchanged. -/
theorem playMove_board_and_captures (s : Session) (hwf : WellFormed s.board) (c : Cell)
    (hc : c = BLACK ∨ c = WHITE) (x y : Int) (hok : (playMove s x y c).1 = true) :
    cellAt (playMove s x y c).2.board x y = c ∧
    (∀ q, Captured (setCell s.board x y c) x y c q →
      cellAt s.board q.1 q.2 = opp c ∧ cellAt (playMove s x y c).2.board q.1 q.2 = EMPTY) ∧
    (∀ q, q ≠ (x, y) → ¬ Captured (setCell s.board x y c) x y c q →
      cellAt (playMove s x y c).2.board q.1 q.2 = cellAt s.board q.1 q.2) ∧
    (playMove s x y c).2.captures.get c =
      s.captures.get c + removedCount s.board (playMove s x y c).2.board ∧
    (playMove s x y c).2.captures.get (opp c) = s.captures.get (opp c) := by
  obtain ⟨next, hnext⟩ := playMove_true s x y c hok
  have htry := isLegalMove_ok _ _ _ _ _ _ hnext
  obtain ⟨hin, hemp, rfl, -⟩ := tryPlay_ok _ _ _ _ _ htry
  rw [playMove_ok s x y c _ hnext]
  dsimp only
  obtain ⟨h1, h2, h3⟩ := captureLoop_cells s.board hwf x y c hc hin
  refine ⟨h1, ?_, h3, ?_, ?_⟩
  · intro q hq
    refine ⟨?_, h2 q hq⟩
    obtain ⟨n, -, -, hcol, hg, -⟩ := hq
    have hqc : cellAt (setCell s.board x y c) q.1 q.2 = opp c := by rw [hg.color, hcol]
    rw [cellAt_setCell s.board hwf x y hin] at hqc
    split at hqc
    · exact absurd hqc.symm (opp_ne_self hc)
    · exact hqc
  · rw [Captures.get_add_self _ _ hc, captureLoop_count s.board hwf x y c hc hin hemp]
  · rw [Captures.get_add_opp _ _ hc]

/-- C3: on an in-bounds empty cell and for a stone colour, `tryPlay` rejects
with `suicide` exactly when placing the stone captures no opposing stone and
the group of the placed stone has no liberty; so a placement that captures
at least one opposing stone is never rejected as suicide. -/
theorem tryPlay_suicide_iff (b : Board) (hwf : WellFormed b) (c : Cell)
    (hc : c = BLACK ∨ c = WHITE) (x y : Int) (hin : inBounds x y = true)
    (hemp : cellAt b x y = EMPTY) :
    (tryPlay b x y c = .error .suicide ↔
      (¬ ∃ q, Captured (setCell b x y c) x y c q) ∧ NoLiberty (setCell b x y c) (x, y)) ∧
    ((∃ q, Captured (setCell b x y c) x y c q) → tryPlay b x y c ≠ .error .suicide) := by
  have h := suicide_iff b hwf x y c hc ((inBounds_iff x y).1 hin) hemp
  refine ⟨h, ?_⟩
  intro hcap hs
  exact (h.1 hs).1 hcap

/-- C4: if every group of the given board has a liberty and `tryPlay`
succeeds for a stone colour, then every group (of either colour) of the
returned board has a liberty. -/
theorem tryPlay_returns_legal_board (b : Board) (hwf : WellFormed b)
    (halive : AllGroupsAlive b) (c : Cell) (hc : c = BLACK ∨ c = WHITE) (x y : Int)
    (r : PlayResult) (h : tryPlay b x y c = .ok r) : AllGroupsAlive r.b2 :=
  tryPlay_alive b hwf halive c hc x y r h

/-- C5: right after a successful `playMove` that changed the board from `P`
to `Q`, a move of the other colour is rejected with reason `ko` exactly when
`tryPlay` accepts it on `Q` and the board it produces is `P`, cell for cell;
an accepted placement whose board differs from `P` in some cell is legal. -/
theorem ko_iff_recreates_prior_position (s : Session) (hwf : WellFormed s.board) (c : Cell)
    (hc : c = BLACK ∨ c = WHITE) (x y : Int) (hok : (playMove s x y c).1 = true)
    (x' y' : Int) :
    (isLegalMove (playMove s x y c).2.prevPosStr (playMove s x y c).2.board x' y' (opp c)
        = .error .ko ↔
      ∃ r, tryPlay (playMove s x y c).2.board x' y' (opp c) = .ok r ∧ r.b2 = s.board) ∧
    (∀ r, tryPlay (playMove s x y c).2.board x' y' (opp c) = .ok r →
      (∃ u v, cellAt r.b2 u v ≠ cellAt s.board u v) →
      isLegalMove (playMove s x y c).2.prevPosStr (playMove s x y c).2.board x' y' (opp c)
        = .ok r) := by
  obtain ⟨next, hnext⟩ := playMove_true s x y c hok
  have htry := isLegalMove_ok _ _ _ _ _ _ hnext
  have hwfQ : WellFormed next.b2 := tryPlay_wellFormed s.board hwf c hc x y next htry
  have hoc : opp c = BLACK ∨ opp c = WHITE := by
    rcases hc with rfl | rfl
    · right; rfl
    · left; rfl
  rw [playMove_ok s x y c _ hnext]
  dsimp only
  have hiff : isLegalMove (boardToString s.board) next.b2 x' y' (opp c) = .error .ko ↔
      ∃ r, tryPlay next.b2 x' y' (opp c) = .ok r ∧ r.b2 = s.board := by
    rw [isLegalMove_error_ko_iff]
    constructor
    · rintro ⟨r, hr, -, hstr⟩
      have hwfr := tryPlay_wellFormed next.b2 hwfQ (opp c) hoc x' y' r hr
      exact ⟨r, hr, (boardToString_inj r.b2 s.board hwfr hwf).1 hstr⟩
    · rintro ⟨r, hr, heq⟩
      exact ⟨r, hr, boardToString_ne_empty _, by rw [heq]⟩
  refine ⟨hiff, ?_⟩
  rintro r hr ⟨u, v, huv⟩
  unfold isLegalMove
  rw [hr]
  dsimp only
  rw [if_neg]
  rintro ⟨-, hstr⟩
  have hwfr := tryPlay_wellFormed next.b2 hwfQ (opp c) hoc x' y' r hr
  have := (boardToString_inj r.b2 s.board hwfr hwf).1 hstr
  rw [this] at huv
  exact huv rfl

/-- C6: undo is a strict inverse: from a Playing state `s`, `playMove`
succeeds exactly when `isLegalMove` accepts the move, and a successful
`playMove` or a `passTurn` followed by `popHistory` restores the board, both
capture counts, the colour to move, the consecutive-pass counter, the ko
signature and the history stack of `s` (and the last move). -/
theorem popHistory_undoes_move_and_pass (s : Session) (hplay : s.inScoring = false) :
    (∀ x y c,
      ((playMove s x y c).1 = true ↔
        ∃ next, isLegalMove s.prevPosStr s.board x y c = .ok next) ∧
      ((playMove s x y c).1 = true →
        (popHistory (playMove s x y c).2).board = s.board ∧
        (popHistory (playMove s x y c).2).captures = s.captures ∧
        (popHistory (playMove s x y c).2).toPlay = s.toPlay ∧
        (popHistory (playMove s x y c).2).consecutivePasses = s.consecutivePasses ∧
        (popHistory (playMove s x y c).2).prevPosStr = s.prevPosStr ∧
        (popHistory (playMove s x y c).2).history = s.history ∧
        (popHistory (playMove s x y c).2).lastMove = s.lastMove)) ∧
    ((popHistory (passTurn s)).board = s.board ∧
      (popHistory (passTurn s)).captures = s.captures ∧
      (popHistory (passTurn s)).toPlay = s.toPlay ∧
      (popHistory (passTurn s)).consecutivePasses = s.consecutivePasses ∧
      (popHistory (passTurn s)).prevPosStr = s.prevPosStr ∧
      (popHistory (passTurn s)).history = s.history ∧
      (popHistory (passTurn s)).lastMove = s.lastMove) := by
  constructor
  · intro x y c
    constructor
    · constructor
      · exact playMove_true s x y c
      · rintro ⟨next, hnext⟩
        rw [playMove_ok s x y c _ hnext]
    · intro hok
      obtain ⟨next, hnext⟩ := playMove_true s x y c hok
      rw [playMove_ok s x y c _ hnext]
      simp [popHistory, cloneBoard_eq]
  · unfold passTurn
    rw [hplay]
    simp only [Bool.false_eq_true, if_false]
    split <;> simp [popHistory, pushHistory, endByPasses, cloneBoard_eq]

/-- C7: whenever `playMove` rejects a move, for any of the reasons out of
bounds, occupied, suicide or ko, it returns `false` and leaves the whole
session state as it was. -/
theorem playMove_rejection_keeps_state (s : Session) (x y : Int) (c : Cell) (reason : Reason)
    (h : isLegalMove s.prevPosStr s.board x y c = .error reason) :
    (playMove s x y c).1 = false ∧ (playMove s x y c).2 = s := by
  rw [playMove_error s x y c reason h]
  exact ⟨rfl, rfl⟩

/-- C9: from a Playing state, `passTurn` adds one to `consecutivePasses` and
flips the colour to move, whichever colour passes; the session is in Scoring
after the call exactly when the counter has reached 2; `playMove` succeeds
exactly when `isLegalMove` accepts the move, and every successful `playMove`
sets `consecutivePasses` to 0. -/
theorem passTurn_counter_and_scoring (s : Session) (hplay : s.inScoring = false)
    (hturn : s.toPlay = BLACK ∨ s.toPlay = WHITE) :
    (passTurn s).consecutivePasses = s.consecutivePasses + 1 ∧
    (passTurn s).toPlay = opp s.toPlay ∧
    (passTurn s).toPlay ≠ s.toPlay ∧
    ((passTurn s).inScoring = true ↔ 2 ≤ s.consecutivePasses + 1) ∧
    (∀ x y c,
      ((playMove s x y c).1 = true ↔
        ∃ next, isLegalMove s.prevPosStr s.board x y c = .ok next) ∧
      ((playMove s x y c).1 = true → (playMove s x y c).2.consecutivePasses = 0)) := by
  have hp : passTurn s =
      if s.consecutivePasses + 1 ≥ 2 then
        endByPasses { pushHistory s with
          prevPosStr := boardToString s.board, lastMove := none,
          consecutivePasses := s.consecutivePasses + 1, toPlay := opp s.toPlay }
      else
        { pushHistory s with
          prevPosStr := boardToString s.board, lastMove := none,
          consecutivePasses := s.consecutivePasses + 1, toPlay := opp s.toPlay } := by
    unfold passTurn
    rw [hplay]
    rfl
  refine ⟨?_, ?_, ?_, ?_, ?_⟩
  · rw [hp]; split <;> rfl
  · rw [hp]; split <;> rfl
  · have : (passTurn s).toPlay = opp s.toPlay := by rw [hp]; split <;> rfl
    rw [this]
    exact opp_ne_self hturn
  · rw [hp]
    split
    · rename_i h
      simp [endByPasses, h]
    · rename_i h
      simp [pushHistory, hplay, h]
  · intro x y c
    constructor
    · constructor
      · exact playMove_true s x y c
      · rintro ⟨next, hnext⟩
        rw [playMove_ok s x y c _ hnext]
    · intro hok
      obtain ⟨next, hnext⟩ := playMove_true s x y c hok
      rw [playMove_ok s x y c _ hnext]

/-! ## The region flood fill of the scoring engine -/

theorem stoneAtScoring_eq_empty_iff (board : Board) (dead : List Coord) (p : Coord) :
    stoneAtScoring board dead p.1 p.2 = EMPTY ↔ EffEmpty board dead p := by
  unfold stoneAtScoring EffEmpty key
  dsimp only
  by_cases h1 : cellAt board p.1 p.2 = EMPTY
  · simp [h1]
  · by_cases h2 : (p.1, p.2) ∈ dead
    · simp [h1, h2]
    · simp [h1, h2]

theorem stoneAtScoring_eq_live_iff (board : Board) (dead : List Coord) (n : Coord) (v : Cell) :
    (stoneAtScoring board dead n.1 n.2 = v ∧ v ≠ EMPTY) ↔ LiveStone board dead v n := by
  unfold stoneAtScoring LiveStone key
  dsimp only
  have hn : (n.1, n.2) = n := rfl
  rw [hn]
  by_cases h1 : cellAt board n.1 n.2 = EMPTY
  · rw [if_pos h1]
    constructor
    · rintro ⟨h, hv⟩; exact absurd h.symm hv
    · rintro ⟨h, hv, -⟩; exact absurd (h.symm.trans h1) hv
  · by_cases h2 : n ∈ dead
    · rw [if_neg h1, if_pos h2]
      constructor
      · rintro ⟨h, hv⟩; exact absurd h.symm hv
      · rintro ⟨-, -, hd⟩; exact absurd h2 hd
    · rw [if_neg h1, if_neg h2]
      constructor
      · rintro ⟨h, hv⟩; exact ⟨h, hv, h2⟩
      · rintro ⟨h, hv, -⟩; exact ⟨h, hv⟩

theorem visitRegionNeighbor_core (board : Board) (dead : List Coord) (st : RegionState)
    (n : Coord) :
    (visitRegionNeighbor board dead st n).core =
      coreVisit (followEmpty board dead) st.core n := by
  unfold visitRegionNeighbor coreVisit followEmpty RegionState.core key
  dsimp only
  by_cases h1 : stoneAtScoring board dead n.1 n.2 = EMPTY
  · by_cases h3 : n ∈ st.visited
    · rw [if_pos h1, if_pos h3]
      simp [h1, h3]
    · rw [if_pos h1, if_neg h3]
      simp [h1, h3, setAdd]
  · rw [if_neg h1]
    simp [h1]

theorem foldl_visitRegionNeighbor_core (board : Board) (dead : List Coord) (ns : List Coord) :
    ∀ st : RegionState,
    (ns.foldl (visitRegionNeighbor board dead) st).core =
      ns.foldl (coreVisit (followEmpty board dead)) st.core := by
  induction ns with
  | nil => intro st; rfl
  | cons n ns ih =>
    intro st
    rw [List.foldl_cons, List.foldl_cons, ih, visitRegionNeighbor_core]

theorem regionLoop_core (board : Board) (dead : List Coord) (fuel : Nat) :
    ∀ st : RegionState,
    (regionLoop board dead fuel st).core =
      coreLoop (followEmpty board dead) fuel st.core := by
  induction fuel with
  | zero => intro st; rfl
  | succ fuel ih =>
    intro st
    obtain ⟨q, visited, region, border⟩ := st
    cases q with
    | nil => rfl
    | cons p rest =>
      show (regionLoop board dead fuel _).core = coreLoop _ fuel _
      rw [ih, foldl_visitRegionNeighbor_core]
      rfl

theorem visitRegionNeighbor_region (board : Board) (dead : List Coord) (st : RegionState)
    (n : Coord) : (visitRegionNeighbor board dead st n).region = st.region := by
  unfold visitRegionNeighbor
  dsimp only
  split
  · split <;> rfl
  · rfl

theorem foldl_visitRegionNeighbor_region (board : Board) (dead : List Coord)
    (ns : List Coord) : ∀ st : RegionState,
    (ns.foldl (visitRegionNeighbor board dead) st).region = st.region := by
  induction ns with
  | nil => intro st; rfl
  | cons n ns ih =>
    intro st
    rw [List.foldl_cons, ih, visitRegionNeighbor_region]

theorem foldl_visitRegionNeighbor_border (board : Board) (dead : List Coord)
    (ns : List Coord) : ∀ st : RegionState, st.border.Nodup →
      (ns.foldl (visitRegionNeighbor board dead) st).border.Nodup ∧
      ∀ v, v ∈ (ns.foldl (visitRegionNeighbor board dead) st).border ↔
        v ∈ st.border ∨ ∃ n ∈ ns, stoneAtScoring board dead n.1 n.2 = v ∧ v ≠ EMPTY := by
  induction ns with
  | nil => intro st h; exact ⟨h, by simp⟩
  | cons n ns ih =>
    intro st h
    rw [List.foldl_cons]
    by_cases h1 : stoneAtScoring board dead n.1 n.2 = EMPTY
    · have hv : (visitRegionNeighbor board dead st n).border = st.border := by
        unfold visitRegionNeighbor; dsimp only; rw [if_pos h1]
        split <;> rfl
      obtain ⟨i1, i2⟩ := ih (visitRegionNeighbor board dead st n) (by rw [hv]; exact h)
      refine ⟨i1, fun v => ?_⟩
      rw [i2 v, hv]
      constructor
      · rintro (h | ⟨m, hm, h'⟩)
        · exact Or.inl h
        · exact Or.inr ⟨m, List.mem_cons_of_mem _ hm, h'⟩
      · rintro (h | ⟨m, hm, h'⟩)
        · exact Or.inl h
        · rcases List.mem_cons.1 hm with rfl | hm
          · exact absurd (h'.1.symm.trans h1) h'.2
          · exact Or.inr ⟨m, hm, h'⟩
    · have hv : visitRegionNeighbor board dead st n =
          { st with border := setAdd st.border (stoneAtScoring board dead n.1 n.2) } := by
        unfold visitRegionNeighbor; dsimp only; rw [if_neg h1]
      rw [hv]
      obtain ⟨i1, i2⟩ := ih
        { st with border := setAdd st.border (stoneAtScoring board dead n.1 n.2) }
        (nodup_setAdd _ _ h)
      refine ⟨i1, fun v => ?_⟩
      rw [i2 v]
      simp only [mem_setAdd]
      constructor
      · rintro ((h | rfl) | ⟨m, hm, h'⟩)
        · exact Or.inl h
        · exact Or.inr ⟨n, List.mem_cons_self _ _, rfl, h1⟩
        · exact Or.inr ⟨m, List.mem_cons_of_mem _ hm, h'⟩
      · rintro (h | ⟨m, hm, h'⟩)
        · exact Or.inl (Or.inl h)
        · rcases List.mem_cons.1 hm with rfl | hm
          · exact Or.inl (Or.inr h'.1.symm)
          · exact Or.inr ⟨m, hm, h'⟩

theorem regionLoop_border (board : Board) (dead : List Coord) (fuel : Nat) :
    ∀ st : RegionState, st.border.Nodup →
      (∀ v, v ∈ st.border ↔ BorderOf board dead st.region v) →
      (regionLoop board dead fuel st).border.Nodup ∧
      ∀ v, v ∈ (regionLoop board dead fuel st).border ↔
        BorderOf board dead (regionLoop board dead fuel st).region v := by
  induction fuel with
  | zero => intro st h1 h2; exact ⟨h1, h2⟩
  | succ fuel ih =>
    intro st h1 h2
    obtain ⟨q, visited, region, border⟩ := st
    cases q with
    | nil => exact ⟨h1, h2⟩
    | cons p rest =>
      simp only [regionLoop]
      obtain ⟨i1, i2⟩ := foldl_visitRegionNeighbor_border board dead (neighbors p.1 p.2)
        { q := rest, visited := visited, region := region ++ [p], border := border } h1
      apply ih _ i1
      intro v
      rw [i2 v, foldl_visitRegionNeighbor_region]
      dsimp only at h2 ⊢
      rw [h2 v]
      unfold BorderOf
      constructor
      · rintro (⟨u, hu, h⟩ | h)
        · exact ⟨u, by simp [hu], h⟩
        · exact ⟨p, by simp, h⟩
      · rintro ⟨u, hu, h⟩
        simp only [List.mem_append, List.mem_singleton] at hu
        rcases hu with hu | rfl
        · exact Or.inl ⟨u, hu, h⟩
        · exact Or.inr h

theorem fstep_followEmpty (board : Board) (dead : List Coord) (p q : Coord) :
    FStep (followEmpty board dead) p q ↔ RegionStep board dead p q := by
  unfold FStep RegionStep followEmpty
  rw [mem_neighbors, decide_eq_true_eq, stoneAtScoring_eq_empty_iff]
  tauto

theorem reach_followEmpty (board : Board) (dead : List Coord) (s p : Coord) :
    Relation.ReflTransGen (FStep (followEmpty board dead)) s p ↔ InRegion board dead s p := by
  have : FStep (followEmpty board dead) = RegionStep board dead := by
    funext p q; exact propext (fstep_followEmpty board dead p q)
  unfold InRegion
  rw [this]

/-! ## Regions as equivalence classes -/

theorem InRegion.props {board : Board} {dead : List Coord} {s p : Coord} (hs : OnBoard s)
    (he : EffEmpty board dead s) (h : InRegion board dead s p) :
    OnBoard p ∧ EffEmpty board dead p := by
  induction h with
  | refl => exact ⟨hs, he⟩
  | tail _ hstep _ => exact ⟨hstep.1, hstep.2.2⟩

theorem InRegion.reverse {board : Board} {dead : List Coord} {s p : Coord} (hs : OnBoard s)
    (he : EffEmpty board dead s) (h : InRegion board dead s p) : InRegion board dead p s := by
  induction h with
  | refl => exact Relation.ReflTransGen.refl
  | tail hsu hstep ih =>
    have hu := InRegion.props hs he hsu
    exact Relation.ReflTransGen.head ⟨hu.1, hstep.2.1.symm, hu.2⟩ ih

theorem inRegion_iff_of_mem {board : Board} {dead : List Coord} {s q : Coord} (hs : OnBoard s)
    (he : EffEmpty board dead s) (hq : InRegion board dead s q) (p : Coord) :
    InRegion board dead q p ↔ InRegion board dead s p :=
  ⟨fun h => Relation.ReflTransGen.trans hq h,
   fun h => Relation.ReflTransGen.trans (hq.reverse hs he) h⟩

theorem borders_iff_of_mem {board : Board} {dead : List Coord} {s q : Coord} (hs : OnBoard s)
    (he : EffEmpty board dead s) (hq : InRegion board dead s q) (c : Cell) :
    Borders board dead q c ↔ Borders board dead s c := by
  unfold Borders
  constructor
  · rintro ⟨p, n, hp, h⟩
    exact ⟨p, n, (inRegion_iff_of_mem hs he hq p).1 hp, h⟩
  · rintro ⟨p, n, hp, h⟩
    exact ⟨p, n, (inRegion_iff_of_mem hs he hq p).2 hp, h⟩

theorem isTerritory_iff_of_mem {board : Board} {dead : List Coord} {s q : Coord}
    (hs : OnBoard s) (he : EffEmpty board dead s) (hq : InRegion board dead s q) (c : Cell) :
    IsTerritory board dead c q ↔ IsTerritory board dead c s := by
  have hqp := InRegion.props hs he hq
  unfold IsTerritory
  rw [borders_iff_of_mem hs he hq c, borders_iff_of_mem hs he hq (opp c)]
  constructor
  · rintro ⟨-, -, h⟩; exact ⟨hs, he, h⟩
  · rintro ⟨-, -, h⟩; exact ⟨hqp.1, hqp.2, h⟩

/-- Result of one region flood fill started at an unvisited, effectively
empty cell, when the visited cells form whole regions. -/
theorem regionLoop_spec (board : Board) (dead : List Coord) (x y : Int)
    (visited0 : List Coord) (hs : OnBoard (x, y)) (he : EffEmpty board dead (x, y))
    (h0 : (x, y) ∉ visited0) (h0n : visited0.Nodup) (h0b : ∀ p ∈ visited0, OnBoard p)
    (h0c : ∀ p ∈ visited0, ∀ q, FStep (followEmpty board dead) p q → q ∈ visited0) :
    (regionLoop board dead (N * N)
      { q := [(x, y)], visited := setAdd visited0 (key x y), region := [], border := [] }).region.Nodup ∧
    (∀ p, p ∈ (regionLoop board dead (N * N)
      { q := [(x, y)], visited := setAdd visited0 (key x y), region := [], border := [] }).region ↔
        InRegion board dead (x, y) p) ∧
    (regionLoop board dead (N * N)
      { q := [(x, y)], visited := setAdd visited0 (key x y), region := [], border := [] }).visited.Nodup ∧
    (∀ p, p ∈ (regionLoop board dead (N * N)
      { q := [(x, y)], visited := setAdd visited0 (key x y), region := [], border := [] }).visited ↔
        p ∈ visited0 ∨ InRegion board dead (x, y) p) ∧
    (regionLoop board dead (N * N)
      { q := [(x, y)], visited := setAdd visited0 (key x y), region := [], border := [] }).border.Nodup ∧
    (∀ v, v ∈ (regionLoop board dead (N * N)
      { q := [(x, y)], visited := setAdd visited0 (key x y), region := [], border := [] }).border ↔
        Borders board dead (x, y) v) := by
  have hF : followEmpty board dead (x, y) = true := by
    unfold followEmpty
    rw [decide_eq_true_eq]
    exact (stoneAtScoring_eq_empty_iff board dead (x, y)).2 he
  have hadd : setAdd visited0 (key x y) = visited0 ++ [(x, y)] := by
    unfold setAdd key
    rw [if_neg h0]
  have hN : N * N = 81 := rfl
  rw [hadd, hN]
  obtain ⟨c1, c2, c3, c4⟩ := @coreLoop_spec (followEmpty board dead) (x, y) visited0
    hF hs h0 h0n h0b h0c
  have hcore := regionLoop_core board dead 81
    { q := [(x, y)], visited := visited0 ++ [(x, y)], region := [], border := [] }
  obtain ⟨b1, b2⟩ := regionLoop_border board dead 81
    { q := [(x, y)], visited := visited0 ++ [(x, y)], region := [], border := [] }
    List.nodup_nil (by intro v; simp [BorderOf])
  generalize regionLoop board dead 81
    { q := [(x, y)], visited := visited0 ++ [(x, y)], region := [], border := [] } = st at *
  simp only [RegionState.core] at hcore
  rw [← hcore] at c1 c2 c3 c4
  dsimp only at c1 c2 c3 c4
  have hreg : ∀ p, p ∈ st.region ↔ InRegion board dead (x, y) p := by
    intro p; rw [c2 p, reach_followEmpty]
  refine ⟨c1, hreg, c3, ?_, b1, ?_⟩
  · intro p; rw [c4 p, reach_followEmpty]
  · intro v
    rw [b2 v]
    unfold BorderOf Borders
    constructor
    · rintro ⟨p, hp, n, hn, hv⟩
      rw [mem_neighbors] at hn
      exact ⟨p, n, (hreg p).1 hp, hn.1, hn.2, (stoneAtScoring_eq_live_iff _ _ _ _).1 hv⟩
    · rintro ⟨p, n, hp, hnb, ha, hv⟩
      exact ⟨p, (hreg p).2 hp, n, (mem_neighbors _ _ _).2 ⟨hnb, ha⟩,
        (stoneAtScoring_eq_live_iff _ _ _ _).2 hv⟩

/-- The test `border.size === 1` with `owner = [...border][0]`. -/
theorem owner_iff (border : List Cell) (hn : border.Nodup) (hne : EMPTY ∉ border) (c : Cell)
    (hc : c = BLACK ∨ c = WHITE) :
    (border.length = 1 ∧ border.head? = some c) ↔ (c ∈ border ∧ opp c ∉ border) := by
  constructor
  · rintro ⟨h1, h2⟩
    match border, h1, h2 with
    | [a], _, h2 =>
      simp only [List.head?_cons, Option.some.injEq] at h2
      subst h2
      simp only [List.mem_singleton, true_and]
      exact opp_ne_self hc
  · rintro ⟨h1, h2⟩
    have hall : ∀ a ∈ border, a = c := by
      intro a ha
      rcases opp_cases hc a (fun h => hne (h ▸ ha)) with h | h
      · exact h
      · exact absurd (h ▸ ha) h2
    match border, hn, h1, hall with
    | [], _, h1, _ => simp at h1
    | [a], _, _, hall => simp [hall a (by simp)]
    | a :: b :: r, hn, _, hall =>
      have ha := hall a (by simp)
      have hb := hall b (by simp)
      rw [ha, hb] at hn
      simp at hn

/-! ## The double loop of `computeFinalScore` -/

theorem nested_foldl_eq {α : Type} (f : α → Int → Int → α) (rows cols : List Int) :
    ∀ init : α,
      rows.foldl (fun acc y => cols.foldl (fun acc x => f acc x y) acc) init =
        (rows.flatMap (fun y => cols.map (fun x => (x, y)))).foldl
          (fun acc p => f acc p.1 p.2) init := by
  induction rows with
  | nil => intro init; rfl
  | cons y rows ih =>
    intro init
    rw [List.foldl_cons, ih, List.flatMap_cons, List.foldl_append, List.foldl_map]

theorem territory_step (board : Board) (dead : List Coord) (c : Cell)
    (hc : c = BLACK ∨ c = WHITE) (x y : Int) (hs : OnBoard (x, y))
    (he : EffEmpty board dead (x, y)) (visited0 visited1 region : List Coord) (n0 : Nat)
    (border : List Cell)
    (hreg : ∀ p, p ∈ region ↔ InRegion board dead (x, y) p) (hregn : region.Nodup)
    (hvis : ∀ p, p ∈ visited1 ↔ p ∈ visited0 ∨ InRegion board dead (x, y) p)
    (hdisj : ∀ p, InRegion board dead (x, y) p → p ∉ visited0)
    (hbn : border.Nodup) (hb : ∀ v, v ∈ border ↔ Borders board dead (x, y) v)
    (hold : ∃ l : List Coord, l.Nodup ∧
      (∀ p, p ∈ l ↔ p ∈ visited0 ∧ IsTerritory board dead c p) ∧ n0 = l.length) :
    ∃ l : List Coord, l.Nodup ∧
      (∀ p, p ∈ l ↔ p ∈ visited1 ∧ IsTerritory board dead c p) ∧
      (if border.length = 1 ∧ border.head? = some c then n0 + region.length else n0)
        = l.length := by
  obtain ⟨l, hl1, hl2, hl3⟩ := hold
  have hne : EMPTY ∉ border := by
    intro h
    obtain ⟨p, n, -, -, -, -, hv, -⟩ := (hb EMPTY).1 h
    exact hv rfl
  have hown := owner_iff border hbn hne c hc
  have hterr : IsTerritory board dead c (x, y) ↔ (c ∈ border ∧ opp c ∉ border) := by
    unfold IsTerritory
    rw [hb c, hb (opp c)]
    constructor
    · rintro ⟨-, -, h⟩; exact h
    · intro h; exact ⟨hs, he, h⟩
  by_cases hT : IsTerritory board dead c (x, y)
  · rw [if_pos (hown.2 (hterr.1 hT))]
    refine ⟨l ++ region, ?_, ?_, ?_⟩
    · apply List.Nodup.append hl1 hregn
      intro p hp hp2
      exact hdisj p ((hreg p).1 hp2) ((hl2 p).1 hp).1
    · intro p
      rw [List.mem_append, hl2 p, hvis p, hreg p]
      constructor
      · rintro (⟨h1, h2⟩ | h)
        · exact ⟨Or.inl h1, h2⟩
        · exact ⟨Or.inr h, (isTerritory_iff_of_mem hs he h c).2 hT⟩
      · rintro ⟨h1 | h1, h2⟩
        · exact Or.inl ⟨h1, h2⟩
        · exact Or.inr h1
    · rw [List.length_append, hl3]
  · rw [if_neg (fun h => hT (hterr.2 (hown.1 h)))]
    refine ⟨l, hl1, ?_, hl3⟩
    intro p
    rw [hl2 p, hvis p]
    constructor
    · rintro ⟨h1, h2⟩; exact ⟨Or.inl h1, h2⟩
    · rintro ⟨h1 | h1, h2⟩
      · exact ⟨h1, h2⟩
      · exact absurd ((isTerritory_iff_of_mem hs he h1 c).1 h2) hT

theorem scoreCell_eq (board : Board) (dead : List Coord) (acc : ScoreAcc) (x y : Int)
    (he : stoneAtScoring board dead x y = EMPTY) (hv : (x, y) ∉ acc.visited) :
    scoreCell board dead acc x y =
      { visited := (regionLoop board dead (N * N)
          { q := [(x, y)], visited := setAdd acc.visited (key x y), region := [],
            border := [] }).visited,
        blackTerritory :=
          if (regionLoop board dead (N * N)
              { q := [(x, y)], visited := setAdd acc.visited (key x y), region := [],
                border := [] }).border.length = 1 ∧
            (regionLoop board dead (N * N)
              { q := [(x, y)], visited := setAdd acc.visited (key x y), region := [],
                border := [] }).border.head? = some BLACK
          then acc.blackTerritory + (regionLoop board dead (N * N)
              { q := [(x, y)], visited := setAdd acc.visited (key x y), region := [],
                border := [] }).region.length
          else acc.blackTerritory,
        whiteTerritory :=
          if (regionLoop board dead (N * N)
              { q := [(x, y)], visited := setAdd acc.visited (key x y), region := [],
                border := [] }).border.length = 1 ∧
            (regionLoop board dead (N * N)
              { q := [(x, y)], visited := setAdd acc.visited (key x y), region := [],
                border := [] }).border.head? = some WHITE
          then acc.whiteTerritory + (regionLoop board dead (N * N)
              { q := [(x, y)], visited := setAdd acc.visited (key x y), region := [],
                border := [] }).region.length
          else acc.whiteTerritory } := by
  unfold scoreCell
  have hk : key x y ∉ acc.visited := hv
  rw [if_neg (by simpa using he)]
  dsimp only
  rw [if_neg hk]
  generalize regionLoop board dead (N * N)
    { q := [(x, y)], visited := setAdd acc.visited (key x y), region := [], border := [] } = st
  by_cases h1 : st.border.length = 1
  · simp [h1]
  · simp [h1]

theorem scoreCell_inv (board : Board) (dead : List Coord) (done : List Coord) (acc : ScoreAcc)
    (x y : Int) (hs : OnBoard (x, y)) (hinv : ScoreInv board dead done acc) :
    ScoreInv board dead (done ++ [(x, y)]) (scoreCell board dead acc x y) := by
  by_cases he : stoneAtScoring board dead x y = EMPTY
  · by_cases hv : (x, y) ∈ acc.visited
    · have : scoreCell board dead acc x y = acc := by
        unfold scoreCell key
        rw [if_neg (by simpa using he)]
        dsimp only
        rw [if_pos hv]
      rw [this]
      refine ⟨hinv.nodup, hinv.onBoard, hinv.closed, ?_, hinv.black, hinv.white⟩
      intro p hp hpe
      rcases List.mem_append.1 hp with hp | hp
      · exact hinv.covered p hp hpe
      · rw [List.mem_singleton] at hp; subst hp; exact hv
    · have hee : EffEmpty board dead (x, y) :=
        (stoneAtScoring_eq_empty_iff board dead (x, y)).1 he
      have hF : followEmpty board dead (x, y) = true := by
        unfold followEmpty; rw [decide_eq_true_eq]; exact he
      obtain ⟨r1, r2, r3, r4, r5, r6⟩ := regionLoop_spec board dead x y acc.visited hs hee hv
        hinv.nodup hinv.onBoard hinv.closed
      have hdisj : ∀ p, InRegion board dead (x, y) p → p ∉ acc.visited := by
        intro p hp
        exact reach_not_mem_seen0 hF hs hv hinv.closed ((reach_followEmpty _ _ _ _).2 hp)
      have hB := territory_step board dead BLACK (Or.inl rfl) x y hs hee acc.visited _ _
        acc.blackTerritory _ r2 r1 r4 hdisj r5 r6 hinv.black
      have hW := territory_step board dead WHITE (Or.inr rfl) x y hs hee acc.visited _ _
        acc.whiteTerritory _ r2 r1 r4 hdisj r5 r6 hinv.white
      rw [scoreCell_eq board dead acc x y he hv]
      refine ⟨r3, ?_, ?_, ?_, hB, hW⟩
      · intro p hp
        rcases (r4 p).1 hp with h | h
        · exact hinv.onBoard p h
        · exact (InRegion.props hs hee h).1
      · intro p hp q hq
        rw [r4 q]
        rcases (r4 p).1 hp with h | h
        · exact Or.inl (hinv.closed p h q hq)
        · exact Or.inr (Relation.ReflTransGen.tail h ((fstep_followEmpty _ _ _ _).1 hq))
      · intro p hp hpe
        rw [r4 p]
        rcases List.mem_append.1 hp with hp | hp
        · exact Or.inl (hinv.covered p hp hpe)
        · rw [List.mem_singleton] at hp; subst hp; exact Or.inr Relation.ReflTransGen.refl
  · have : scoreCell board dead acc x y = acc := by
      unfold scoreCell
      rw [if_pos (by simpa using he)]
    rw [this]
    refine ⟨hinv.nodup, hinv.onBoard, hinv.closed, ?_, hinv.black, hinv.white⟩
    intro p hp hpe
    rcases List.mem_append.1 hp with hp | hp
    · exact hinv.covered p hp hpe
    · rw [List.mem_singleton] at hp; subst hp
      exact absurd ((stoneAtScoring_eq_empty_iff board dead (x, y)).2 hpe) he

theorem scoreCells_inv (board : Board) (dead : List Coord) (cells : List Coord) :
    ∀ (done : List Coord) (acc : ScoreAcc), (∀ p ∈ cells, OnBoard p) →
      ScoreInv board dead done acc →
      ScoreInv board dead (done ++ cells) (scoreCells board dead cells acc) := by
  induction cells with
  | nil => intro done acc _ h; simpa [scoreCells] using h
  | cons p cells ih =>
    intro done acc hon h
    have h1 := scoreCell_inv board dead done acc p.1 p.2 (hon p (List.mem_cons_self _ _)) h
    have h2 := ih (done ++ [p]) _ (fun q hq => hon q (List.mem_cons_of_mem _ hq)) h1
    simpa [scoreCells] using h2

theorem scoreInv_init (board : Board) (dead : List Coord) :
    ScoreInv board dead [] { visited := [], blackTerritory := 0, whiteTerritory := 0 } := by
  refine ⟨List.nodup_nil, by simp, by simp, by simp, ⟨[], List.nodup_nil, by simp, rfl⟩,
    ⟨[], List.nodup_nil, by simp, rfl⟩⟩

theorem computeFinalScore_acc (board : Board) (dead : List Coord) (captures : Captures) :
    (computeFinalScore board dead captures).blackTerritory =
      (scoreCells board dead allCells
        { visited := [], blackTerritory := 0, whiteTerritory := 0 }).blackTerritory ∧
    (computeFinalScore board dead captures).whiteTerritory =
      (scoreCells board dead allCells
        { visited := [], blackTerritory := 0, whiteTerritory := 0 }).whiteTerritory := by
  unfold computeFinalScore scoreCells allCells
  dsimp only
  rw [nested_foldl_eq (fun acc x y => scoreCell board dead acc x y)]
  exact ⟨rfl, rfl⟩

theorem ncard_of_list {α : Type} [DecidableEq α] (P : α → Prop) (l : List α) (hn : l.Nodup)
    (h : ∀ p, p ∈ l ↔ P p) : Set.ncard {p | P p} = l.length := by
  have : {p | P p} = (↑l.toFinset : Set α) := by
    ext p
    simp [h p]
  rw [this, Set.ncard_coe_Finset, List.toFinset_card_of_nodup hn]

/-- Territory counts of `computeFinalScore` (content of claim C8). -/
theorem territory_counts (board : Board) (dead : List Coord) (captures : Captures) :
    (computeFinalScore board dead captures).blackTerritory =
      Set.ncard {p | IsTerritory board dead BLACK p} ∧
    (computeFinalScore board dead captures).whiteTerritory =
      Set.ncard {p | IsTerritory board dead WHITE p} := by
  obtain ⟨hb, hw⟩ := computeFinalScore_acc board dead captures
  have hinv := scoreCells_inv board dead allCells [] _ (fun p hp => (mem_allCells p).1 hp)
    (scoreInv_init board dead)
  rw [List.nil_append] at hinv
  have hcov : ∀ c p, IsTerritory board dead c p →
      p ∈ (scoreCells board dead allCells
        { visited := [], blackTerritory := 0, whiteTerritory := 0 }).visited := by
    intro c p hp
    exact hinv.covered p ((mem_allCells p).2 hp.1) hp.2.1
  obtain ⟨lB, b1, b2, b3⟩ := hinv.black
  obtain ⟨lW, w1, w2, w3⟩ := hinv.white
  constructor
  · rw [hb, b3]
    symm
    apply ncard_of_list _ lB b1
    intro p
    rw [b2 p]
    exact ⟨fun h => h.2, fun h => ⟨hcov BLACK p h, h⟩⟩
  · rw [hw, w3]
    symm
    apply ncard_of_list _ lW w1
    intro p
    rw [w2 p]
    exact ⟨fun h => h.2, fun h => ⟨hcov WHITE p h, h⟩⟩

/-- C8: `blackTerritory` (resp. `whiteTerritory`) returned by
`computeFinalScore` is the number of effectively empty cells of the board
that lie in a maximal 4-connected region of effectively empty cells bordered
by at least one live Black (resp. White) stone and by no live stone of the
other colour; a cell whose region is bordered by both colours or by no live
stone is territory of neither side. -/
theorem computeFinalScore_territory (board : Board) (dead : List Coord) (captures : Captures) :
    (computeFinalScore board dead captures).blackTerritory =
      Set.ncard {p | IsTerritory board dead BLACK p} ∧
    (computeFinalScore board dead captures).whiteTerritory =
      Set.ncard {p | IsTerritory board dead WHITE p} ∧
    (∀ p, (Borders board dead p BLACK ∧ Borders board dead p WHITE) ∨
        (¬ Borders board dead p BLACK ∧ ¬ Borders board dead p WHITE) →
      ¬ IsTerritory board dead BLACK p ∧ ¬ IsTerritory board dead WHITE p) := by
  obtain ⟨hb, hw⟩ := territory_counts board dead captures
  refine ⟨hb, hw, ?_⟩
  rintro p (⟨h1, h2⟩ | ⟨h1, h2⟩)
  · exact ⟨fun h => h.2.2.2 h2, fun h => h.2.2.2 h1⟩
  · exact ⟨fun h => h1 h.2.2.1, fun h => h2 h.2.2.1⟩

theorem toggleDeadGroupAt_fields (s : Session) (x y : Int) :
    (toggleDeadGroupAt s x y).board = s.board ∧
    (toggleDeadGroupAt s x y).toPlay = s.toPlay ∧
    (toggleDeadGroupAt s x y).captures = s.captures ∧
    (toggleDeadGroupAt s x y).consecutivePasses = s.consecutivePasses ∧
    (toggleDeadGroupAt s x y).prevPosStr = s.prevPosStr ∧
    (toggleDeadGroupAt s x y).history = s.history ∧
    (toggleDeadGroupAt s x y).lastMove = s.lastMove ∧
    (toggleDeadGroupAt s x y).inScoring = s.inScoring := by
  unfold toggleDeadGroupAt
  dsimp only
  split
  · exact ⟨rfl, rfl, rfl, rfl, rfl, rfl, rfl, rfl⟩
  · exact ⟨rfl, rfl, rfl, rfl, rfl, rfl, rfl, rfl⟩

/-- C10: while the session is in Scoring mode a pass and every move are
rejected as no-ops. `passTurn` returns the state as it is. `playMove` is
called from two places only, the canvas click (a Black move at the clicked
cell) and `computerPlay` (a White move at the cell its heuristic prefers),
and in Scoring mode both return before the call: a click on any cell leaves
the board, the colour to move, the capture counts, the consecutive-pass
counter, the ko signature, the history and the last move unchanged (it only
toggles dead marks) and keeps the mode, and `computerPlay` returns the state
as it is, whatever the heuristic. The test of the mode sits in these callers;
`playMove` itself holds none. -/
theorem scoring_mode_rejects_pass_and_moves (s : Session) (hs : s.inScoring = true) :
    passTurn s = s ∧
    (∀ p, (onCanvasClick s p).board = s.board ∧
      (onCanvasClick s p).toPlay = s.toPlay ∧
      (onCanvasClick s p).captures = s.captures ∧
      (onCanvasClick s p).consecutivePasses = s.consecutivePasses ∧
      (onCanvasClick s p).prevPosStr = s.prevPosStr ∧
      (onCanvasClick s p).history = s.history ∧
      (onCanvasClick s p).lastMove = s.lastMove ∧
      (onCanvasClick s p).inScoring = true) ∧
    (∀ evaluateMoveForAI, computerPlay evaluateMoveForAI s = s) := by
  refine ⟨?_, ?_, ?_⟩
  · unfold passTurn
    rw [if_pos hs]
  · intro p
    cases p with
    | none => exact ⟨rfl, rfl, rfl, rfl, rfl, rfl, rfl, hs⟩
    | some p =>
      unfold onCanvasClick
      dsimp only
      rw [if_pos hs]
      split
      · obtain ⟨h1, h2, h3, h4, h5, h6, h7, h8⟩ := toggleDeadGroupAt_fields s p.1 p.2
        exact ⟨h1, h2, h3, h4, h5, h6, h7, h8.trans hs⟩
      · exact ⟨rfl, rfl, rfl, rfl, rfl, rfl, rfl, hs⟩
  · intro ev
    unfold computerPlay
    rw [if_pos hs]

/-- In Playing mode with White to move a canvas click is dropped. -/
theorem onCanvasClick_dropped_on_white_turn (s : Session) (hplay : s.inScoring = false)
    (hturn : s.toPlay = WHITE) (p : Option Coord) : onCanvasClick s p = s := by
  cases p with
  | none => rfl
  | some p =>
    unfold onCanvasClick
    dsimp only
    rw [hplay, hturn]
    rfl

/-! ## Instances of the theorems at concrete positions -/

theorem allGroupsAlive_of_check (b : Board)
    (h : ∀ p ∈ allCells, cellAt b p.1 p.2 ≠ EMPTY →
      (getGroupAndLiberties b p.1 p.2).liberties ≠ []) : AllGroupsAlive b := by
  intro p hp hocc
  have h1 := h p ((mem_allCells p).2 hp) hocc
  obtain ⟨-, -, -, g4⟩ := getGroup_spec b p.1 p.2 hp hocc
  obtain ⟨l, hl⟩ := List.exists_mem_of_ne_nil _ h1
  exact ⟨l, (g4 l).1 hl⟩

theorem getGroupAndLiberties_exact_witness :
    inBounds 0 0 = true ∧ cellAt cornerBoard 0 0 ≠ EMPTY ∧
    ((getGroupAndLiberties cornerBoard 0 0).stones.Nodup ∧
    (∀ p, p ∈ (getGroupAndLiberties cornerBoard 0 0).stones ↔ InGroup cornerBoard (0, 0) p) ∧
    (getGroupAndLiberties cornerBoard 0 0).liberties.Nodup ∧
    (∀ l, l ∈ (getGroupAndLiberties cornerBoard 0 0).liberties ↔
      IsLiberty cornerBoard (0, 0) l) ∧
    (∀ q, InGroup cornerBoard (0, 0) q →
      (getGroupAndLiberties cornerBoard q.1 q.2).stones.Perm
        (getGroupAndLiberties cornerBoard 0 0).stones ∧
      (getGroupAndLiberties cornerBoard q.1 q.2).liberties.Perm
        (getGroupAndLiberties cornerBoard 0 0).liberties)) :=
  ⟨by decide, by decide, getGroupAndLiberties_exact cornerBoard 0 0 (by decide) (by decide)⟩

theorem playMove_board_and_captures_witness :
    WellFormed cornerSession.board ∧ (BLACK = BLACK ∨ BLACK = WHITE) ∧
    (playMove cornerSession 0 1 BLACK).1 = true ∧
    (cellAt (playMove cornerSession 0 1 BLACK).2.board 0 1 = BLACK ∧
    (∀ q, Captured (setCell cornerSession.board 0 1 BLACK) 0 1 BLACK q →
      cellAt cornerSession.board q.1 q.2 = opp BLACK ∧
      cellAt (playMove cornerSession 0 1 BLACK).2.board q.1 q.2 = EMPTY) ∧
    (∀ q, q ≠ (0, 1) → ¬ Captured (setCell cornerSession.board 0 1 BLACK) 0 1 BLACK q →
      cellAt (playMove cornerSession 0 1 BLACK).2.board q.1 q.2 =
        cellAt cornerSession.board q.1 q.2) ∧
    (playMove cornerSession 0 1 BLACK).2.captures.get BLACK =
      cornerSession.captures.get BLACK +
        removedCount cornerSession.board (playMove cornerSession 0 1 BLACK).2.board ∧
    (playMove cornerSession 0 1 BLACK).2.captures.get (opp BLACK) =
      cornerSession.captures.get (opp BLACK)) :=
  ⟨by decide, Or.inl rfl, by decide,
    playMove_board_and_captures cornerSession (by decide) BLACK (Or.inl rfl) 0 1 (by decide)⟩

theorem tryPlay_suicide_iff_witness :
    WellFormed eyeBoard ∧ (WHITE = BLACK ∨ WHITE = WHITE) ∧ inBounds 0 0 = true ∧
    cellAt eyeBoard 0 0 = EMPTY ∧
    ((tryPlay eyeBoard 0 0 WHITE = .error .suicide ↔
      (¬ ∃ q, Captured (setCell eyeBoard 0 0 WHITE) 0 0 WHITE q) ∧
        NoLiberty (setCell eyeBoard 0 0 WHITE) (0, 0)) ∧
    ((∃ q, Captured (setCell eyeBoard 0 0 WHITE) 0 0 WHITE q) →
      tryPlay eyeBoard 0 0 WHITE ≠ .error .suicide)) :=
  ⟨by decide, Or.inr rfl, by decide, by decide,
    tryPlay_suicide_iff eyeBoard (by decide) WHITE (Or.inr rfl) 0 0 (by decide) (by decide)⟩

theorem tryPlay_returns_legal_board_witness :
    WellFormed cornerBoard ∧ AllGroupsAlive cornerBoard ∧ (BLACK = BLACK ∨ BLACK = WHITE) ∧
    tryPlay cornerBoard 0 1 BLACK = .ok (captureLoop cornerBoard 0 1 BLACK) ∧
    AllGroupsAlive (captureLoop cornerBoard 0 1 BLACK).b2 :=
  ⟨by decide, allGroupsAlive_of_check cornerBoard (by decide), Or.inl rfl, rfl,
    tryPlay_returns_legal_board cornerBoard (by decide)
      (allGroupsAlive_of_check cornerBoard (by decide)) BLACK (Or.inl rfl) 0 1
      (captureLoop cornerBoard 0 1 BLACK) rfl⟩

theorem ko_iff_recreates_prior_position_witness :
    WellFormed koSession.board ∧ (BLACK = BLACK ∨ BLACK = WHITE) ∧
    (playMove koSession 2 1 BLACK).1 = true ∧
    ((isLegalMove (playMove koSession 2 1 BLACK).2.prevPosStr
        (playMove koSession 2 1 BLACK).2.board 1 1 (opp BLACK) = .error .ko ↔
      ∃ r, tryPlay (playMove koSession 2 1 BLACK).2.board 1 1 (opp BLACK) = .ok r ∧
        r.b2 = koSession.board) ∧
    (∀ r, tryPlay (playMove koSession 2 1 BLACK).2.board 1 1 (opp BLACK) = .ok r →
      (∃ u v, cellAt r.b2 u v ≠ cellAt koSession.board u v) →
      isLegalMove (playMove koSession 2 1 BLACK).2.prevPosStr
        (playMove koSession 2 1 BLACK).2.board 1 1 (opp BLACK) = .ok r)) :=
  ⟨by decide, Or.inl rfl, by decide,
    ko_iff_recreates_prior_position koSession (by decide) BLACK (Or.inl rfl) 2 1
      (by decide) 1 1⟩

theorem popHistory_undoes_move_and_pass_witness :
    cornerSession.inScoring = false ∧
    (playMove cornerSession 0 1 BLACK).1 = true ∧
    (playMove cornerSession 0 1 BLACK).2.board ≠ cornerSession.board ∧
    (playMove cornerSession 0 1 BLACK).2.captures ≠ cornerSession.captures ∧
    (playMove cornerSession 0 1 BLACK).2.toPlay ≠ cornerSession.toPlay ∧
    (playMove cornerSession 0 1 BLACK).2.prevPosStr ≠ cornerSession.prevPosStr ∧
    (playMove cornerSession 0 1 BLACK).2.history ≠ cornerSession.history ∧
    ((popHistory (playMove cornerSession 0 1 BLACK).2).board = cornerSession.board ∧
      (popHistory (playMove cornerSession 0 1 BLACK).2).captures = cornerSession.captures ∧
      (popHistory (playMove cornerSession 0 1 BLACK).2).toPlay = cornerSession.toPlay ∧
      (popHistory (playMove cornerSession 0 1 BLACK).2).consecutivePasses =
        cornerSession.consecutivePasses ∧
      (popHistory (playMove cornerSession 0 1 BLACK).2).prevPosStr =
        cornerSession.prevPosStr ∧
      (popHistory (playMove cornerSession 0 1 BLACK).2).history = cornerSession.history ∧
      (popHistory (playMove cornerSession 0 1 BLACK).2).lastMove = cornerSession.lastMove) ∧
    ((∀ x y c,
      ((playMove cornerSession x y c).1 = true ↔
        ∃ next, isLegalMove cornerSession.prevPosStr cornerSession.board x y c = .ok next) ∧
      ((playMove cornerSession x y c).1 = true →
        (popHistory (playMove cornerSession x y c).2).board = cornerSession.board ∧
        (popHistory (playMove cornerSession x y c).2).captures = cornerSession.captures ∧
        (popHistory (playMove cornerSession x y c).2).toPlay = cornerSession.toPlay ∧
        (popHistory (playMove cornerSession x y c).2).consecutivePasses =
          cornerSession.consecutivePasses ∧
        (popHistory (playMove cornerSession x y c).2).prevPosStr =
          cornerSession.prevPosStr ∧
        (popHistory (playMove cornerSession x y c).2).history = cornerSession.history ∧
        (popHistory (playMove cornerSession x y c).2).lastMove = cornerSession.lastMove)) ∧
    ((popHistory (passTurn cornerSession)).board = cornerSession.board ∧
      (popHistory (passTurn cornerSession)).captures = cornerSession.captures ∧
      (popHistory (passTurn cornerSession)).toPlay = cornerSession.toPlay ∧
      (popHistory (passTurn cornerSession)).consecutivePasses =
        cornerSession.consecutivePasses ∧
      (popHistory (passTurn cornerSession)).prevPosStr = cornerSession.prevPosStr ∧
      (popHistory (passTurn cornerSession)).history = cornerSession.history ∧
      (popHistory (passTurn cornerSession)).lastMove = cornerSession.lastMove)) :=
  ⟨by decide, by decide, by decide, by decide, by decide, by decide, by decide,
    ((popHistory_undoes_move_and_pass cornerSession (by decide)).1 0 1 BLACK).2 (by decide),
    popHistory_undoes_move_and_pass cornerSession (by decide)⟩

theorem playMove_rejection_keeps_state_witness :
    isLegalMove cornerSession.prevPosStr cornerSession.board 0 0 BLACK = .error .occupied ∧
    ((playMove cornerSession 0 0 BLACK).1 = false ∧
      (playMove cornerSession 0 0 BLACK).2 = cornerSession) :=
  ⟨rfl, playMove_rejection_keeps_state cornerSession 0 0 BLACK .occupied rfl⟩

theorem passTurn_counter_and_scoring_witness :
    onePassSession.inScoring = false ∧
    (onePassSession.toPlay = BLACK ∨ onePassSession.toPlay = WHITE) ∧
    onePassSession.consecutivePasses = 1 ∧
    (playMove onePassSession 4 4 WHITE).1 = true ∧
    (playMove onePassSession 4 4 WHITE).2.consecutivePasses = 0 ∧
    (passTurn onePassSession).inScoring = true ∧
    ((passTurn onePassSession).consecutivePasses = onePassSession.consecutivePasses + 1 ∧
    (passTurn onePassSession).toPlay = opp onePassSession.toPlay ∧
    (passTurn onePassSession).toPlay ≠ onePassSession.toPlay ∧
    ((passTurn onePassSession).inScoring = true ↔ 2 ≤ onePassSession.consecutivePasses + 1) ∧
    (∀ x y c,
      ((playMove onePassSession x y c).1 = true ↔
        ∃ next, isLegalMove onePassSession.prevPosStr onePassSession.board x y c = .ok next) ∧
      ((playMove onePassSession x y c).1 = true →
        (playMove onePassSession x y c).2.consecutivePasses = 0))) :=
  ⟨by decide, Or.inr (by decide), by decide, by decide,
    ((passTurn_counter_and_scoring onePassSession (by decide) (Or.inr (by decide))).2.2.2.2
      4 4 WHITE).2 (by decide),
    (passTurn_counter_and_scoring onePassSession (by decide)
      (Or.inr (by decide))).2.2.2.1.2 (by decide),
    passTurn_counter_and_scoring onePassSession (by decide) (Or.inr (by decide))⟩

theorem scoring_mode_rejects_pass_and_moves_witness :
    scoringSession.inScoring = true ∧
    cellAt scoringSession.board 0 0 = EMPTY ∧
    (onCanvasClick (exitScoring scoringSession) (some (0, 0))).board ≠ scoringSession.board ∧
    (passTurn (exitScoring scoringSession)).consecutivePasses ≠
      scoringSession.consecutivePasses ∧
    (passTurn scoringSession = scoringSession ∧
    (∀ p, (onCanvasClick scoringSession p).board = scoringSession.board ∧
      (onCanvasClick scoringSession p).toPlay = scoringSession.toPlay ∧
      (onCanvasClick scoringSession p).captures = scoringSession.captures ∧
      (onCanvasClick scoringSession p).consecutivePasses = scoringSession.consecutivePasses ∧
      (onCanvasClick scoringSession p).prevPosStr = scoringSession.prevPosStr ∧
      (onCanvasClick scoringSession p).history = scoringSession.history ∧
      (onCanvasClick scoringSession p).lastMove = scoringSession.lastMove ∧
      (onCanvasClick scoringSession p).inScoring = true) ∧
    (∀ evaluateMoveForAI, computerPlay evaluateMoveForAI scoringSession = scoringSession)) :=
  ⟨by decide, by decide, by decide, by decide,
    scoring_mode_rejects_pass_and_moves scoringSession (by decide)⟩

/-! ## The rules at work on small positions -/

/-- On `eyeBoard`, White at the corner (0,0) captures nothing and has no
liberty: the move is rejected as suicide. -/
theorem suicide_example : tryPlay eyeBoard 0 0 WHITE = .error .suicide := by
  rfl

/-- On `cornerBoard`, Black at (0,1) takes the last liberty of the White
corner stone: the move is accepted and captures that stone. -/
theorem capture_example :
    (tryPlay cornerBoard 0 1 BLACK).toOption.map (fun r => (r.capturedCount, r.capturedStones))
      = some (1, [(0, 0)]) := by
  decide

/-- On `koBoard`, Black captures at (2,1); the White recapture at (1,1) would
restore `koBoard` and is rejected with reason `ko`; once each side has played
one move elsewhere the same recapture is accepted. -/
theorem ko_example :
    (playMove koSession 2 1 BLACK).1 = true ∧
    isLegalMove (playMove koSession 2 1 BLACK).2.prevPosStr
      (playMove koSession 2 1 BLACK).2.board 1 1 WHITE = .error .ko ∧
    (playMove (playMove (playMove (playMove koSession 2 1 BLACK).2 8 8 WHITE).2 6 6 BLACK).2
      1 1 WHITE).1 = true :=
  ⟨by decide, rfl, by decide⟩

set_option maxRecDepth 100000 in
/-- On the empty board no territory is awarded to either side. -/
theorem empty_board_score :
    (computeFinalScore emptyBoard [] { black := 0, white := 0 }).blackTerritory = 0 ∧
    (computeFinalScore emptyBoard [] { black := 0, white := 0 }).whiteTerritory = 0 := by
  decide

set_option maxRecDepth 100000 in
/-- On `wallBoard` the column left of the Black wall is Black territory, the
five columns right of the White wall are White territory, and the column
between the walls belongs to neither. -/
theorem wall_board_score :
    (computeFinalScore wallBoard [] { black := 0, white := 0 }).blackTerritory = 9 ∧
    (computeFinalScore wallBoard [] { black := 0, white := 0 }).whiteTerritory = 45 := by
  decide

/-! ## `toggleDeadGroupAt` -/

theorem mem_setDelete {α : Type} [DecidableEq α] (s : List α) (k a : α) :
    a ∈ setDelete s k ↔ a ∈ s ∧ a ≠ k := by
  unfold setDelete
  simp [List.mem_filter]

theorem mem_foldl_mark (allDead : Bool) (stones : List Coord) :
    ∀ (d : List Coord) (q : Coord),
      q ∈ stones.foldl (fun d p =>
        let k := key p.1 p.2
        if allDead then setDelete d k else setAdd d k) d ↔
      if allDead = true then q ∈ d ∧ q ∉ stones else q ∈ d ∨ q ∈ stones := by
  induction stones with
  | nil => intro d q; cases allDead <;> simp
  | cons p ps ih =>
    intro d q
    rw [List.foldl_cons, ih]
    have hk : key p.1 p.2 = p := rfl
    cases allDead
    · simp only [Bool.false_eq_true, if_false, hk, mem_setAdd, List.mem_cons]
      tauto
    · simp only [if_true, hk, mem_setDelete, List.mem_cons]
      tauto

theorem toggleDeadGroupAt_dead (s : Session) (x y : Int) (hocc : cellAt s.board x y ≠ EMPTY)
    (q : Coord) :
    q ∈ (toggleDeadGroupAt s x y).dead ↔
      if (∀ p ∈ (getGroupAndLiberties s.board x y).stones, p ∈ s.dead)
      then q ∈ s.dead ∧ q ∉ (getGroupAndLiberties s.board x y).stones
      else q ∈ s.dead ∨ q ∈ (getGroupAndLiberties s.board x y).stones := by
  unfold toggleDeadGroupAt
  dsimp only
  rw [if_neg hocc]
  dsimp only
  rw [mem_foldl_mark]
  have hall : (getGroupAndLiberties s.board x y).stones.all
      (fun p => decide (key p.1 p.2 ∈ s.dead)) = true ↔
      ∀ p ∈ (getGroupAndLiberties s.board x y).stones, p ∈ s.dead := by
    rw [List.all_eq_true]
    constructor
    · intro h p hp
      have := h p hp
      rw [decide_eq_true_eq] at this
      exact this
    · intro h p hp
      rw [decide_eq_true_eq]
      exact h p hp
  by_cases h : ∀ p ∈ (getGroupAndLiberties s.board x y).stones, p ∈ s.dead
  · rw [if_pos (hall.2 h), if_pos h]
  · rw [if_neg (fun h' => h (hall.1 h')), if_neg h]

/-- C12: on an in-bounds occupied cell `toggleDeadGroupAt(x,y)` is
all-or-nothing on the group of `(x,y)`: if some stone of the group is not
marked dead, afterwards every stone of the group is marked; if every stone of
the group is marked, afterwards none is; the marks of the cells outside the
group and the board are unchanged; and on an empty cell the call changes
nothing. -/
theorem toggleDeadGroupAt_all_or_nothing (s : Session) (x y : Int)
    (hin : inBounds x y = true) :
    (cellAt s.board x y ≠ EMPTY →
      ((∃ p, InGroup s.board (x, y) p ∧ p ∉ s.dead) →
        ∀ p, InGroup s.board (x, y) p → p ∈ (toggleDeadGroupAt s x y).dead) ∧
      ((∀ p, InGroup s.board (x, y) p → p ∈ s.dead) →
        ∀ p, InGroup s.board (x, y) p → p ∉ (toggleDeadGroupAt s x y).dead) ∧
      (∀ q, ¬ InGroup s.board (x, y) q →
        (q ∈ (toggleDeadGroupAt s x y).dead ↔ q ∈ s.dead)) ∧
      (toggleDeadGroupAt s x y).board = s.board) ∧
    (cellAt s.board x y = EMPTY → toggleDeadGroupAt s x y = s) := by
  constructor
  · intro hocc
    have hs : OnBoard (x, y) := (inBounds_iff x y).1 hin
    obtain ⟨-, g2, -, -⟩ := getGroup_spec s.board x y hs hocc
    have hd := toggleDeadGroupAt_dead s x y hocc
    refine ⟨?_, ?_, ?_, (toggleDeadGroupAt_fields s x y).1⟩
    · rintro ⟨p0, hp0, hnd⟩ p hp
      rw [hd p, if_neg (fun h => hnd (h p0 ((g2 p0).2 hp0)))]
      exact Or.inr ((g2 p).2 hp)
    · intro hall p hp
      rw [hd p, if_pos (fun u hu => hall u ((g2 u).1 hu))]
      exact fun h => h.2 ((g2 p).2 hp)
    · intro q hq
      have hq' : q ∉ (getGroupAndLiberties s.board x y).stones := fun h => hq ((g2 q).1 h)
      rw [hd q]
      split
      · exact ⟨fun h => h.1, fun h => ⟨h, hq'⟩⟩
      · exact ⟨fun h => h.resolve_right hq', Or.inl⟩
  · intro hemp
    unfold toggleDeadGroupAt
    dsimp only
    rw [if_pos hemp]

/-! ## The double loop of `computeTerritoryPreviewCells` -/

theorem isTerritory_unique {board : Board} {dead : List Coord} {c c' : Cell} {p : Coord}
    (hc : c = BLACK ∨ c = WHITE) (hc' : c' = BLACK ∨ c' = WHITE)
    (h : IsTerritory board dead c p) (h' : IsTerritory board dead c' p) : c = c' := by
  by_contra hne
  have : c' = opp c := by
    rcases hc with rfl | rfl <;> rcases hc' with rfl | rfl <;> first | rfl | exact absurd rfl hne
  rw [this] at h'
  exact h.2.2.2 h'.2.2.1

theorem previewCell_inv (board : Board) (dead : List Coord) (done : List Coord)
    (acc : PreviewAcc) (x y : Int) (hs : OnBoard (x, y))
    (hinv : PreviewInv board dead done acc) :
    PreviewInv board dead (done ++ [(x, y)]) (previewCell board dead acc x y) := by
  have hcov : ∀ acc' : PreviewAcc, acc'.visited = acc.visited → (x, y) ∈ acc.visited ∨
      ¬ EffEmpty board dead (x, y) →
      ∀ p ∈ done ++ [(x, y)], EffEmpty board dead p → p ∈ acc.visited := by
    intro acc' _ h p hp hpe
    rcases List.mem_append.1 hp with hp | hp
    · exact hinv.covered p hp hpe
    · rw [List.mem_singleton] at hp; subst hp
      rcases h with h | h
      · exact h
      · exact absurd hpe h
  by_cases he : stoneAtScoring board dead x y = EMPTY
  · by_cases hv : (x, y) ∈ acc.visited
    · have : previewCell board dead acc x y = acc := by
        unfold previewCell key
        rw [if_neg (by simpa using he)]
        dsimp only
        rw [if_pos hv]
      rw [this]
      exact ⟨hinv.nodup, hinv.onBoard, hinv.closed, hcov acc rfl (Or.inl hv), hinv.keys,
        hinv.cells⟩
    · have hee : EffEmpty board dead (x, y) :=
        (stoneAtScoring_eq_empty_iff board dead (x, y)).1 he
      have hF : followEmpty board dead (x, y) = true := by
        unfold followEmpty; rw [decide_eq_true_eq]; exact he
      obtain ⟨r1, r2, r3, r4, r5, r6⟩ := regionLoop_spec board dead x y acc.visited hs hee hv
        hinv.nodup hinv.onBoard hinv.closed
      have hdisj : ∀ p, InRegion board dead (x, y) p → p ∉ acc.visited := by
        intro p hp
        exact reach_not_mem_seen0 hF hs hv hinv.closed ((reach_followEmpty _ _ _ _).2 hp)
      have hk : key x y ∉ acc.visited := hv
      have hpc : previewCell board dead acc x y =
          if (regionLoop board dead (N * N)
              { q := [(x, y)], visited := setAdd acc.visited (key x y), region := [],
                border := [] }).border.length = 1 then
            match (regionLoop board dead (N * N)
              { q := [(x, y)], visited := setAdd acc.visited (key x y), region := [],
                border := [] }).border.head? with
            | some owner =>
              { visited := (regionLoop board dead (N * N)
                  { q := [(x, y)], visited := setAdd acc.visited (key x y), region := [],
                    border := [] }).visited,
                territoryCells := acc.territoryCells ++ (regionLoop board dead (N * N)
                  { q := [(x, y)], visited := setAdd acc.visited (key x y), region := [],
                    border := [] }).region.map (fun r => (key r.1 r.2, owner)) }
            | none => { acc with visited := (regionLoop board dead (N * N)
                  { q := [(x, y)], visited := setAdd acc.visited (key x y), region := [],
                    border := [] }).visited }
          else { acc with visited := (regionLoop board dead (N * N)
                  { q := [(x, y)], visited := setAdd acc.visited (key x y), region := [],
                    border := [] }).visited } := by
        unfold previewCell
        rw [if_neg (by simpa using he)]
        dsimp only
        first
          | (rw [if_neg hk]; done)
          | (rw [if_neg hk]; rfl)
      rw [hpc]
      generalize regionLoop board dead (N * N)
        { q := [(x, y)], visited := setAdd acc.visited (key x y), region := [],
          border := [] } = st at r1 r2 r3 r4 r5 r6
      have hne : EMPTY ∉ st.border := by
        intro h
        obtain ⟨p, n, -, -, -, -, hv', -⟩ := (r6 EMPTY).1 h
        exact hv' rfl
      have hterr : ∀ c, c = BLACK ∨ c = WHITE →
          (IsTerritory board dead c (x, y) ↔ (st.border.length = 1 ∧ st.border.head? = some c)) := by
        intro c hc
        rw [owner_iff st.border r5 hne c hc]
        unfold IsTerritory
        rw [r6 c, r6 (opp c)]
        exact ⟨fun h => h.2.2, fun h => ⟨hs, hee, h⟩⟩
      have hvis_on : ∀ p ∈ st.visited, OnBoard p := by
        intro p hp
        rcases (r4 p).1 hp with h | h
        · exact hinv.onBoard p h
        · exact (InRegion.props hs hee h).1
      have hvis_cl : ∀ p ∈ st.visited, ∀ q, FStep (followEmpty board dead) p q →
          q ∈ st.visited := by
        intro p hp q hq
        rw [r4 q]
        rcases (r4 p).1 hp with h | h
        · exact Or.inl (hinv.closed p h q hq)
        · exact Or.inr (Relation.ReflTransGen.tail h ((fstep_followEmpty _ _ _ _).1 hq))
      have hvis_cov : ∀ p ∈ done ++ [(x, y)], EffEmpty board dead p → p ∈ st.visited := by
        intro p hp hpe
        rw [r4 p]
        rcases List.mem_append.1 hp with hp | hp
        · exact Or.inl (hinv.covered p hp hpe)
        · rw [List.mem_singleton] at hp; subst hp; exact Or.inr Relation.ReflTransGen.refl
      -- cells of the new region are no territory unless the owner test succeeds
      have hnone : (∀ c, c = BLACK ∨ c = WHITE → ¬ IsTerritory board dead c (x, y)) →
          ∀ p c, (p, c) ∈ acc.territoryCells ↔
            p ∈ st.visited ∧ (c = BLACK ∨ c = WHITE) ∧ IsTerritory board dead c p := by
        intro hno p c
        rw [hinv.cells p c, r4 p]
        constructor
        · rintro ⟨h1, h2, h3⟩; exact ⟨Or.inl h1, h2, h3⟩
        · rintro ⟨h1 | h1, h2, h3⟩
          · exact ⟨h1, h2, h3⟩
          · exact absurd ((isTerritory_iff_of_mem hs hee h1 c).1 h3) (hno c h2)
      by_cases hlen : st.border.length = 1
      · rw [if_pos hlen]
        cases hhead : st.border.head? with
        | none =>
          dsimp only
          refine ⟨r3, hvis_on, hvis_cl, hvis_cov, hinv.keys, ?_⟩
          apply hnone
          intro c hc hT
          have := ((hterr c hc).1 hT).2
          rw [hhead] at this
          cases this
        | some owner =>
          dsimp only
          have howner_mem : owner ∈ st.border := by
            cases hb : st.border with
            | nil => rw [hb] at hhead; cases hhead
            | cons a r =>
              rw [hb] at hhead
              simp only [List.head?_cons, Option.some.injEq] at hhead
              rw [hhead]; exact List.mem_cons_self _ _
          have howner_col : owner = BLACK ∨ owner = WHITE := by
            cases owner with
            | EMPTY => exact absurd howner_mem hne
            | BLACK => exact Or.inl rfl
            | WHITE => exact Or.inr rfl
          have hTo : IsTerritory board dead owner (x, y) :=
            (hterr owner howner_col).2 ⟨hlen, hhead⟩
          have hkey : (fun r : Coord => (key r.1 r.2, owner)) = fun r => (r, owner) := rfl
          rw [hkey]
          refine ⟨r3, hvis_on, hvis_cl, hvis_cov, ?_, ?_⟩
          · rw [List.map_append, List.map_map]
            have hid : (Prod.fst ∘ fun r : Coord => (r, owner)) = id := rfl
            rw [hid, List.map_id]
            apply List.Nodup.append hinv.keys r1
            intro p hp hp2
            obtain ⟨⟨p', c⟩, hpc', rfl⟩ := List.mem_map.1 hp
            exact hdisj p' ((r2 p').1 hp2) ((hinv.cells p' c).1 hpc').1
          · intro p c
            rw [List.mem_append, hinv.cells p c, r4 p, List.mem_map]
            constructor
            · rintro (⟨h1, h2, h3⟩ | ⟨r, hr, heq⟩)
              · exact ⟨Or.inl h1, h2, h3⟩
              · simp only [Prod.mk.injEq] at heq
                obtain ⟨rfl, rfl⟩ := heq
                have hreg := (r2 r).1 hr
                exact ⟨Or.inr hreg, howner_col, (isTerritory_iff_of_mem hs hee hreg _).2 hTo⟩
            · rintro ⟨h1 | h1, h2, h3⟩
              · exact Or.inl ⟨h1, h2, h3⟩
              · right
                have hTc := (isTerritory_iff_of_mem hs hee h1 c).1 h3
                have hco := isTerritory_unique h2 howner_col hTc hTo
                exact ⟨p, (r2 p).2 h1, by rw [hco]⟩
      · rw [if_neg hlen]
        refine ⟨r3, hvis_on, hvis_cl, hvis_cov, hinv.keys, ?_⟩
        apply hnone
        intro c hc hT
        exact hlen ((hterr c hc).1 hT).1
  · have : previewCell board dead acc x y = acc := by
      unfold previewCell
      rw [if_pos (by simpa using he)]
    rw [this]
    refine ⟨hinv.nodup, hinv.onBoard, hinv.closed, ?_, hinv.keys, hinv.cells⟩
    apply hcov acc rfl
    right
    intro hpe
    exact he ((stoneAtScoring_eq_empty_iff board dead (x, y)).2 hpe)

theorem previewCells_inv (board : Board) (dead : List Coord) (cells : List Coord) :
    ∀ (done : List Coord) (acc : PreviewAcc), (∀ p ∈ cells, OnBoard p) →
      PreviewInv board dead done acc →
      PreviewInv board dead (done ++ cells) (previewCells board dead cells acc) := by
  induction cells with
  | nil => intro done acc _ h; simpa [previewCells] using h
  | cons p cells ih =>
    intro done acc hon h
    have h1 := previewCell_inv board dead done acc p.1 p.2 (hon p (List.mem_cons_self _ _)) h
    have h2 := ih (done ++ [p]) _ (fun q hq => hon q (List.mem_cons_of_mem _ hq)) h1
    simpa [previewCells] using h2

theorem previewInv_init (board : Board) (dead : List Coord) :
    PreviewInv board dead [] { visited := [], territoryCells := [] } := by
  refine ⟨List.nodup_nil, by simp, by simp, by simp, by simp, by simp⟩

theorem computeTerritoryPreviewCells_eq (board : Board) (dead : List Coord) :
    computeTerritoryPreviewCells board dead =
      (previewCells board dead allCells { visited := [], territoryCells := [] }).territoryCells := by
  unfold computeTerritoryPreviewCells previewCells allCells
  rw [nested_foldl_eq (fun acc x y => previewCell board dead acc x y)]

/-- The cells listed by `computeTerritoryPreviewCells`: keys without
duplicates, and an entry `(p, c)` exactly for the territory cells `p` of the
stone colour `c`. -/
theorem preview_spec (board : Board) (dead : List Coord) :
    ((computeTerritoryPreviewCells board dead).map Prod.fst).Nodup ∧
    ∀ p c, (p, c) ∈ computeTerritoryPreviewCells board dead ↔
      (c = BLACK ∨ c = WHITE) ∧ IsTerritory board dead c p := by
  rw [computeTerritoryPreviewCells_eq]
  have hinv := previewCells_inv board dead allCells [] _ (fun p hp => (mem_allCells p).1 hp)
    (previewInv_init board dead)
  rw [List.nil_append] at hinv
  refine ⟨hinv.keys, ?_⟩
  intro p c
  rw [hinv.cells p c]
  constructor
  · rintro ⟨-, h⟩; exact h
  · rintro ⟨h1, h2⟩
    exact ⟨hinv.covered p ((mem_allCells p).2 h2.1) h2.2.1, h1, h2⟩

theorem preview_count (board : Board) (dead : List Coord) (c : Cell)
    (hc : c = BLACK ∨ c = WHITE) :
    ((computeTerritoryPreviewCells board dead).filter (fun e => decide (e.2 = c))).length =
      Set.ncard {p | IsTerritory board dead c p} := by
  obtain ⟨h1, h2⟩ := preview_spec board dead
  have hsub : ((computeTerritoryPreviewCells board dead).filter
      (fun e => decide (e.2 = c))).Sublist (computeTerritoryPreviewCells board dead) :=
    List.filter_sublist _
  have hnd : (((computeTerritoryPreviewCells board dead).filter
      (fun e => decide (e.2 = c))).map Prod.fst).Nodup :=
    List.Nodup.sublist (hsub.map Prod.fst) h1
  rw [ncard_of_list (fun p => IsTerritory board dead c p)
    (((computeTerritoryPreviewCells board dead).filter (fun e => decide (e.2 = c))).map Prod.fst)
    hnd, List.length_map]
  intro p
  rw [List.mem_map]
  constructor
  · rintro ⟨⟨p', c'⟩, he, rfl⟩
    rw [List.mem_filter, decide_eq_true_eq] at he
    obtain ⟨hm, rfl⟩ := he
    exact ((h2 p' c').1 hm).2
  · intro hT
    refine ⟨(p, c), ?_, rfl⟩
    rw [List.mem_filter, decide_eq_true_eq]
    exact ⟨(h2 p c).2 ⟨hc, hT⟩, rfl⟩

/-- C11 fails on the code: after a Black move at (0,0) and two passes the
session is in Scoring with White to move; the back-to-game operation returns
to Playing with an empty dead-stone set but leaves White to move. In that
state a click on a free cell is dropped, and a pass enters Scoring again with
the counter at 3. -/
theorem exitScoring_keeps_white_to_move :
    whiteToMoveScoring.inScoring = true ∧
    (exitScoring whiteToMoveScoring).inScoring = false ∧
    (exitScoring whiteToMoveScoring).dead = [] ∧
    (exitScoring whiteToMoveScoring).toPlay = WHITE ∧
    (exitScoring whiteToMoveScoring).toPlay ≠ BLACK ∧
    cellAt (exitScoring whiteToMoveScoring).board 4 4 = EMPTY ∧
    onCanvasClick (exitScoring whiteToMoveScoring) (some (4, 4)) =
      exitScoring whiteToMoveScoring ∧
    (passTurn (exitScoring whiteToMoveScoring)).inScoring = true ∧
    (passTurn (exitScoring whiteToMoveScoring)).consecutivePasses = 3 := by
  decide

/-- C13: `computeTerritoryPreviewCells` lists each cell at most once, lists a
cell with owner Black (resp. White) exactly when it is an effectively empty
cell of a region bordered by live Black (resp. White) stones only, lists no
other owner, and the number of cells listed for each colour is the territory
count returned by `computeFinalScore`. -/
theorem computeTerritoryPreviewCells_matches_score (board : Board) (dead : List Coord)
    (captures : Captures) :
    ((computeTerritoryPreviewCells board dead).map Prod.fst).Nodup ∧
    (∀ p, (p, BLACK) ∈ computeTerritoryPreviewCells board dead ↔
      IsTerritory board dead BLACK p) ∧
    (∀ p, (p, WHITE) ∈ computeTerritoryPreviewCells board dead ↔
      IsTerritory board dead WHITE p) ∧
    (∀ p c, (p, c) ∈ computeTerritoryPreviewCells board dead → c = BLACK ∨ c = WHITE) ∧
    ((computeTerritoryPreviewCells board dead).filter (fun e => decide (e.2 = BLACK))).length =
      (computeFinalScore board dead captures).blackTerritory ∧
    ((computeTerritoryPreviewCells board dead).filter (fun e => decide (e.2 = WHITE))).length =
      (computeFinalScore board dead captures).whiteTerritory := by
  obtain ⟨h1, h2⟩ := preview_spec board dead
  obtain ⟨hb, hw⟩ := territory_counts board dead captures
  refine ⟨h1, ?_, ?_, ?_, ?_, ?_⟩
  · intro p
    rw [h2 p BLACK]
    exact ⟨fun h => h.2, fun h => ⟨Or.inl rfl, h⟩⟩
  · intro p
    rw [h2 p WHITE]
    exact ⟨fun h => h.2, fun h => ⟨Or.inr rfl, h⟩⟩
  · intro p c h
    exact ((h2 p c).1 h).1
  · rw [hb]
    exact preview_count board dead BLACK (Or.inl rfl)
  · rw [hw]
    exact preview_count board dead WHITE (Or.inr rfl)

theorem toggleDeadGroupAt_all_or_nothing_witness :
    inBounds 3 0 = true ∧
    ((cellAt wallSession.board 3 0 ≠ EMPTY →
      ((∃ p, InGroup wallSession.board (3, 0) p ∧ p ∉ wallSession.dead) →
        ∀ p, InGroup wallSession.board (3, 0) p → p ∈ (toggleDeadGroupAt wallSession 3 0).dead) ∧
      ((∀ p, InGroup wallSession.board (3, 0) p → p ∈ wallSession.dead) →
        ∀ p, InGroup wallSession.board (3, 0) p → p ∉ (toggleDeadGroupAt wallSession 3 0).dead) ∧
      (∀ q, ¬ InGroup wallSession.board (3, 0) q →
        (q ∈ (toggleDeadGroupAt wallSession 3 0).dead ↔ q ∈ wallSession.dead)) ∧
      (toggleDeadGroupAt wallSession 3 0).board = wallSession.board) ∧
    (cellAt wallSession.board 3 0 = EMPTY → toggleDeadGroupAt wallSession 3 0 = wallSession)) :=
  ⟨by decide, toggleDeadGroupAt_all_or_nothing wallSession 3 0 (by decide)⟩

/-- On `wallSession`, where one stone of the White wall is marked dead, a
toggle on the wall marks all nine of its stones, and a second toggle clears
every mark. -/
theorem toggle_example :
    (toggleDeadGroupAt wallSession 3 0).dead =
      [(3, 4), (3, 0), (3, 1), (3, 2), (3, 3), (3, 5), (3, 6), (3, 7), (3, 8)] ∧
    (toggleDeadGroupAt (toggleDeadGroupAt wallSession 3 0) 3 0).dead = [] := by
  decide

end Go
